import Mathlib

/-!
# Verification of the chartup version-checking core

This file gives a shallow embedding, in Lean 4, of the core of the
`chartup` repository (a Go tool that checks container image references
and Helm chart declarations for available updates), and proves the
behavioural claims of its specification against that embedding.

Strings are modelled as `List Char` (Go strings are byte slices; every
string handled by the claims is ASCII, where the two models agree).
Go maps used as key/value stores are modelled as association lists with
insert-at-front (lookup finds the most recent binding, which is exactly
the overwrite semantics of a Go map write).  `time.Time`/`time.Duration`
are modelled as `Nat` instants and durations, with elapsed time computed
in `Int` as in Go.

The embedded functions keep the source names:
* `findLatestTag`, `filterSemverTags`, `isSimpleVersion`, `compareSemver`
  from `internal/registry/registry.go`;
* `parseImageString`, `parseDockerfile`, `resolveDockerfileVars` (here
  `resolveVars`) from the scanner;
* the `cache` package (`New`/`Load`/`Save`/`GetImage`/`SetImage`/
  `GetChart`/`SetChart`);
* the `checker` package (`CheckAll`, `checkImage`, `checkChart`,
  `determineStatus`).
-/

/-- Go strings, modelled as lists of characters. -/
abbrev Str := List Char

/-- Convenience: the character list of a Lean string literal. -/
def str (s : String) : Str := s.data

/-- Membership test for a single character (`strings.Contains` with a
one-character needle). -/
def containsChar (c : Char) (s : Str) : Bool := s.contains c

/-- `strings.Contains hay needle`: substring containment. -/
def containsSub (needle : Str) : Str → Bool
  | [] => needle.isEmpty
  | x :: xs => needle.isPrefixOf (x :: xs) || containsSub needle xs

/-- `strings.ToLower`, restricted to the ASCII case mapping used by every
string in scope. -/
def lowerStr (s : Str) : Str := s.map Char.toLower

/-- The character class trimmed by `strings.TrimSpace` (Unicode white
space; the ASCII part plus the two Latin-1 space characters suffices for
the byte values that can occur here). -/
def isGoSpace (c : Char) : Bool :=
  c = ' ' || c = '\t' || c = '\n' || c = '\x0b' || c = '\x0c' || c = '\r' ||
  c = '\x85' || c = '\xa0'

/-- `strings.TrimSpace`. -/
def goTrimSpace (s : Str) : Str :=
  ((s.dropWhile isGoSpace).reverse.dropWhile isGoSpace).reverse

/-- Plain decimal value of a digit string (the empty string reads
as 0). -/
def digitsToNat (s : Str) : Nat :=
  s.foldl (fun n c => 10 * n + (c.toNat - 48)) 0

/-- `strings.Compare`: three-way lexicographic comparison. -/
def stringsCompare : Str → Str → Int
  | [], [] => 0
  | [], _ :: _ => -1
  | _ :: _, [] => 1
  | a :: as, b :: bs =>
    if a.toNat < b.toNat then -1
    else if b.toNat < a.toNat then 1
    else stringsCompare as bs

/-! ## The version comparator (`internal/registry/registry.go`)

`semverRegex = ^v?(\d+)(?:\.(\d+))?(?:\.(\d+))?` is an anchored prefix
match.  `semverGroups` returns the three capture groups (`[]` for an
unmatched optional group, as Go's `FindStringSubmatch` returns `""`),
or `none` when the pattern does not match at all. -/

/-- One optional `(?:\.(\d+))?` group: if the input starts with a dot
followed by at least one digit, capture the maximal digit run. -/
def optDotGroup (s : Str) : Str × Str :=
  match s with
  | '.' :: t =>
    let d := t.takeWhile Char.isDigit
    if d.isEmpty then ([], s) else (d, t.dropWhile Char.isDigit)
  | _ => ([], s)

/-- The capture groups of `semverRegex` after the optional `v`. -/
def semverCore (t : Str) : Option (Str × Str × Str) :=
  let g1 := t.takeWhile Char.isDigit
  if g1.isEmpty then none
  else
    let r1 := t.dropWhile Char.isDigit
    let (g2, r2) := optDotGroup r1
    let (g3, _) := optDotGroup r2
    some (g1, g2, g3)

/-- `semverRegex.FindStringSubmatch`: the three capture groups, or `none`
when the tag does not match.  A leading `v` is consumed when present
(if no digit follows the `v` the regex cannot match at all, since
backtracking to an empty `v?` then requires a digit at the `v`). -/
def semverGroups (s : Str) : Option (Str × Str × Str) :=
  match s with
  | 'v' :: t => semverCore t
  | _ => semverCore s

/-- `semverRegex.MatchString`. -/
def semverMatches (s : Str) : Bool := (semverGroups s).isSome

/-- The value `fmt.Sscanf(group, "%d", &num)` leaves in `num` for one
capture group: the decimal value when it fits Go's signed 64-bit `int`
(`math.MaxInt64 = 9223372036854775807`).  When the digits exceed that
range the underlying `strconv` parse fails, `Sscanf` returns an error,
and the zero-initialised loop variable keeps the value 0; an empty
group (scan error at EOF) likewise stays 0. -/
def svNum (g : Str) : Nat :=
  if digitsToNat g ≤ 9223372036854775807 then digitsToNat g else 0

/-- The parsed `(major, minor, patch)` triple of a tag, missing
components treated as 0 (junk value `(0,0,0)` for non-matching tags;
only used under a matching hypothesis). -/
def semTriple (s : Str) : Nat × Nat × Nat :=
  match semverGroups s with
  | some (g1, g2, g3) => (svNum g1, svNum g2, svNum g3)
  | none => (0, 0, 0)

/-- Left-to-right three-way comparison of parsed triples, mirroring the
`for i := 1; i <= 3` loop of `compareSemver`. -/
def tripleCmpInt (p q : Nat × Nat × Nat) : Int :=
  if p.1 ≠ q.1 then (p.1 : Int) - q.1
  else if p.2.1 ≠ q.2.1 then (p.2.1 : Int) - q.2.1
  else if p.2.2 ≠ q.2.2 then (p.2.2 : Int) - q.2.2
  else 0

/-- `compareSemver` from `registry.go`: numeric triple comparison when
both tags match the version pattern, `strings.Compare` otherwise. -/
def compareSemver (a b : Str) : Int :=
  match semverGroups a, semverGroups b with
  | some ga, some gb =>
    tripleCmpInt (svNum ga.1, svNum ga.2.1, svNum ga.2.2)
      (svNum gb.1, svNum gb.2.1, svNum gb.2.2)
  | _, _ => stringsCompare a b

/-- `strings.HasPrefix(tag, "v")`. -/
def hasVPfx (s : Str) : Bool := s.head? = some 'v'

/-- One step of Go's insertion sort on the `sort.Reverse`d comparator:
the new element moves left past elements strictly smaller than it and
stops at the first element that is greater than or equal (so earlier
input elements stay in front of equal later ones).

`sort.Sort(sort.Reverse(semverSlice(l)))` runs exactly this insertion
sort for every slice of at most 12 elements (the general pdqsort
immediately delegates such ranges to insertion sort); it is modelled by
this stable insertion sort throughout.  Go's pdqsort is *not* stable on
longer ranges, so among `compareSemver`-equal tags the model's order may
differ from the program's beyond 12 elements; the claim theorems below
therefore rely on this definition only through properties every correct
sort of the comparator satisfies (the head is an element of the list,
maximal for the comparator). -/
def goInsertDesc (x : Str) : List Str → List Str
  | [] => [x]
  | y :: ys => if compareSemver y x < 0 then x :: y :: ys else y :: goInsertDesc x ys

/-- `sort.Sort(sort.Reverse(semverSlice l))`, see `goInsertDesc`. -/
def goSortDesc (l : List Str) : List Str :=
  l.foldl (fun acc x => goInsertDesc x acc) []

/-- `isSimpleVersion` from `registry.go`. -/
def isSimpleVersion (tag : Str) : Bool :=
  semverMatches tag && !containsChar '-' tag

/-- `filterSemverTags` from `registry.go`. -/
def filterSemverTags (tags : List Str) : List Str :=
  tags.filter fun tag =>
    semverMatches tag && (!containsChar '-' tag || isSimpleVersion tag)

/-- `findLatestTag` from `registry.go` (the spec's `SelectLatest`). -/
def findLatestTag (tags : List Str) (currentTag : Str) : Str :=
  match tags with
  | [] => []
  | t0 :: _ =>
    match semverGroups currentTag with
    | none =>
      let semverTags := filterSemverTags tags
      match goSortDesc semverTags with
      | [] => t0
      | s :: _ => s
    | some _ =>
      let hasV := hasVPfx currentTag
      let matchingTags := tags.filter fun tag =>
        semverMatches tag && (hasVPfx tag == hasV)
      match goSortDesc matchingTags with
      | [] => currentTag
      | s :: _ => s

/-- The candidate tags that survive `findLatestTag`'s filters: the
simple-version filter when the pinned tag does not match the version
pattern, the style (same `v`-prefix) filter when it does. -/
def survivingTags (tags : List Str) (currentTag : Str) : List Str :=
  match semverGroups currentTag with
  | none => filterSemverTags tags
  | some _ =>
    tags.filter fun tag =>
      semverMatches tag && (hasVPfx tag == hasVPfx currentTag)

/-! ### Order lemmas for the parsed triples -/

/-- Lexicographic `≤` on parsed `(major, minor, patch)` triples: the
spec's "numerically greatest by left-to-right comparison, missing
components treated as 0". -/
def tripleLe (p q : Nat × Nat × Nat) : Prop :=
  p.1 < q.1 ∨ (p.1 = q.1 ∧ (p.2.1 < q.2.1 ∨ (p.2.1 = q.2.1 ∧ p.2.2 ≤ q.2.2)))

/-- Strict lexicographic `<` on parsed triples. -/
def tripleLt (p q : Nat × Nat × Nat) : Prop :=
  p.1 < q.1 ∨ (p.1 = q.1 ∧ (p.2.1 < q.2.1 ∨ (p.2.1 = q.2.1 ∧ p.2.2 < q.2.2)))

lemma tripleCmpInt_nonpos_iff {p q : Nat × Nat × Nat} :
    tripleCmpInt p q ≤ 0 ↔ tripleLe p q := by
  obtain ⟨p1, p2, p3⟩ := p
  obtain ⟨q1, q2, q3⟩ := q
  simp only [tripleCmpInt, tripleLe]
  split_ifs <;> simp_all <;> omega

lemma tripleCmpInt_neg_iff {p q : Nat × Nat × Nat} :
    tripleCmpInt p q < 0 ↔ tripleLt p q := by
  obtain ⟨p1, p2, p3⟩ := p
  obtain ⟨q1, q2, q3⟩ := q
  simp only [tripleCmpInt, tripleLt]
  split_ifs <;> omega

lemma tripleLe_refl (p : Nat × Nat × Nat) : tripleLe p p := by
  simp [tripleLe]

lemma tripleLe_trans {p q r : Nat × Nat × Nat} :
    tripleLe p q → tripleLe q r → tripleLe p r := by
  obtain ⟨p1, p2, p3⟩ := p
  obtain ⟨q1, q2, q3⟩ := q
  obtain ⟨r1, r2, r3⟩ := r
  simp only [tripleLe]
  omega

lemma tripleLt_of_lt_le {p q r : Nat × Nat × Nat} :
    tripleLt p q → tripleLe q r → tripleLt p r := by
  obtain ⟨p1, p2, p3⟩ := p
  obtain ⟨q1, q2, q3⟩ := q
  obtain ⟨r1, r2, r3⟩ := r
  simp only [tripleLt, tripleLe]
  omega

lemma tripleLe_of_not_lt {p q : Nat × Nat × Nat} (h : ¬ tripleLt p q) :
    tripleLe q p := by
  obtain ⟨p1, p2, p3⟩ := p
  obtain ⟨q1, q2, q3⟩ := q
  simp only [tripleLt] at h
  simp only [tripleLe]
  omega

lemma tripleLt_ne {p q : Nat × Nat × Nat} (h : tripleLt p q) : p ≠ q := by
  obtain ⟨p1, p2, p3⟩ := p
  obtain ⟨q1, q2, q3⟩ := q
  simp only [tripleLt] at h
  simp only [ne_eq, Prod.mk.injEq]
  omega

lemma tripleLe_of_lt {p q : Nat × Nat × Nat} (h : tripleLt p q) : tripleLe p q := by
  obtain ⟨p1, p2, p3⟩ := p
  obtain ⟨q1, q2, q3⟩ := q
  simp only [tripleLt] at h
  simp only [tripleLe]
  omega

lemma tripleLe_antisymm {p q : Nat × Nat × Nat} (h1 : tripleLe p q)
    (h2 : tripleLe q p) : p = q := by
  obtain ⟨p1, p2, p3⟩ := p
  obtain ⟨q1, q2, q3⟩ := q
  simp only [tripleLe] at h1 h2
  simp only [Prod.mk.injEq]
  omega

/-- On tags that both match the version pattern, `compareSemver` is the
left-to-right comparison of the parsed triples. -/
lemma compareSemver_matched {a b : Str} (ha : semverMatches a = true)
    (hb : semverMatches b = true) :
    compareSemver a b = tripleCmpInt (semTriple a) (semTriple b) := by
  unfold semverMatches at ha hb
  unfold compareSemver semTriple
  cases hga : semverGroups a with
  | none => rw [hga] at ha; simp at ha
  | some ga =>
    cases hgb : semverGroups b with
    | none => rw [hgb] at hb; simp at hb
    | some gb => obtain ⟨g1, g2, g3⟩ := ga; obtain ⟨h1, h2, h3⟩ := gb; rfl

lemma compareSemver_lt_iff {a b : Str} (ha : semverMatches a = true)
    (hb : semverMatches b = true) :
    compareSemver a b < 0 ↔ tripleLt (semTriple a) (semTriple b) := by
  rw [compareSemver_matched ha hb]; exact tripleCmpInt_neg_iff

/-! ### The head of the reverse-sorted list -/

/-- The left-to-right maximum scan induced by the insertion sort:
the champion is replaced only by a strictly greater element, so the
earliest of several equal-maximal elements wins. -/
def firstMaxAux (c : Str) : List Str → Str
  | [] => c
  | x :: xs => if compareSemver c x < 0 then firstMaxAux x xs else firstMaxAux c xs

lemma goInsertDesc_length (x : Str) (l : List Str) :
    (goInsertDesc x l).length = l.length + 1 := by
  induction l with
  | nil => rfl
  | cons y ys ih => simp only [goInsertDesc]; split <;> simp [ih]

lemma goSortDesc_length (l : List Str) : (goSortDesc l).length = l.length := by
  suffices h : ∀ (l acc : List Str),
      (l.foldl (fun a x => goInsertDesc x a) acc).length = acc.length + l.length by
    simpa using h l []
  intro l
  induction l with
  | nil => simp
  | cons x xs ih => intro acc; simp [List.foldl_cons, ih, goInsertDesc_length]; omega

lemma goInsertDesc_mem {z x : Str} {l : List Str} (h : z ∈ goInsertDesc x l) :
    z = x ∨ z ∈ l := by
  induction l with
  | nil => simpa [goInsertDesc] using h
  | cons y ys ih =>
    simp only [goInsertDesc] at h
    split at h
    · simpa using h
    · rcases List.mem_cons.mp h with h' | h'
      · right; simp [h']
      · rcases ih h' with h'' | h''
        · left; exact h''
        · right; simp [h'']

lemma goSortDesc_subset {z : Str} {l : List Str} (h : z ∈ goSortDesc l) : z ∈ l := by
  suffices hs : ∀ (l acc : List Str),
      z ∈ l.foldl (fun a x => goInsertDesc x a) acc → z ∈ acc ∨ z ∈ l by
    rcases hs l [] h with h' | h'
    · simp at h'
    · exact h'
  intro l
  induction l with
  | nil => intro acc h'; simpa using h'
  | cons x xs ih =>
    intro acc h'
    rcases ih (goInsertDesc x acc) h' with h'' | h''
    · rcases goInsertDesc_mem h'' with h3 | h3
      · right; simp [h3]
      · left; exact h3
    · right; simp [h'']

lemma goInsertDesc_head (x c : Str) (cs : List Str) :
    goInsertDesc x (c :: cs) =
      if compareSemver c x < 0 then x :: c :: cs else c :: goInsertDesc x cs := rfl

lemma foldl_insert_head (l : List Str) :
    ∀ (c : Str) (cs : List Str),
      (l.foldl (fun a x => goInsertDesc x a) (c :: cs)).head? =
        some (firstMaxAux c l) := by
  induction l with
  | nil => intro c cs; rfl
  | cons x xs ih =>
    intro c cs
    simp only [List.foldl_cons, firstMaxAux, goInsertDesc_head]
    split
    · exact ih x (c :: cs)
    · exact ih c (goInsertDesc x cs)

lemma goSortDesc_head (t : Str) (ts : List Str) :
    (goSortDesc (t :: ts)).head? = some (firstMaxAux t ts) := by
  unfold goSortDesc
  simpa [List.foldl_cons, goInsertDesc] using foldl_insert_head ts t []

/-- Full characterisation of the scan maximum over a list of matching
tags: it is a member, it is maximal for the parsed-triple order, and it
is the first element realising its triple (the tie-break by input
order). -/
lemma firstMaxAux_spec (l : List Str) :
    ∀ c : Str, semverMatches c = true → (∀ t ∈ l, semverMatches t = true) →
      firstMaxAux c l ∈ c :: l ∧
      (∀ t ∈ c :: l, tripleLe (semTriple t) (semTriple (firstMaxAux c l))) ∧
      ((c :: l).find? (fun t => decide (semTriple t = semTriple (firstMaxAux c l)))
        = some (firstMaxAux c l)) := by
  induction l with
  | nil =>
    intro c _ _
    refine ⟨by simp [firstMaxAux], ?_, ?_⟩
    · intro t ht
      simp only [List.mem_singleton] at ht
      simp [ht, firstMaxAux, tripleLe_refl]
    · simp [firstMaxAux, List.find?]
  | cons x xs ih =>
    intro c hc hl
    have hx : semverMatches x = true := hl x (by simp)
    have hxs : ∀ t ∈ xs, semverMatches t = true := fun t ht => hl t (by simp [ht])
    by_cases hlt : compareSemver c x < 0
    · -- the champion is replaced by x
      have hR : firstMaxAux c (x :: xs) = firstMaxAux x xs := by
        simp [firstMaxAux, hlt]
      have hcx : tripleLt (semTriple c) (semTriple x) :=
        (compareSemver_lt_iff hc hx).mp hlt
      obtain ⟨hmem, hmax, hfind⟩ := ih x hx hxs
      refine ⟨?_, ?_, ?_⟩
      · rw [hR]
        rcases List.mem_cons.mp hmem with h | h
        · simp [h]
        · simp [h]
      · intro t ht
        rw [hR]
        rcases List.mem_cons.mp ht with h | h
        · subst h
          have hxr : tripleLe (semTriple x) (semTriple (firstMaxAux x xs)) :=
            hmax x (by simp)
          exact tripleLe_trans (tripleLe_of_lt hcx) hxr
        · exact hmax t (by simp [h])
      · rw [hR]
        have hne : semTriple c ≠ semTriple (firstMaxAux x xs) := by
          have hxr : tripleLe (semTriple x) (semTriple (firstMaxAux x xs)) :=
            hmax x (by simp)
          exact tripleLt_ne (tripleLt_of_lt_le hcx hxr)
        simp only [List.find?]
        rw [decide_eq_false hne]
        exact hfind
    · -- the champion survives
      have hR : firstMaxAux c (x :: xs) = firstMaxAux c xs := by
        simp [firstMaxAux, hlt]
      have hxc : tripleLe (semTriple x) (semTriple c) := by
        apply tripleLe_of_not_lt
        intro hcontra
        exact hlt ((compareSemver_lt_iff hc hx).mpr hcontra)
      obtain ⟨hmem, hmax, hfind⟩ := ih c hc hxs
      have hcr : tripleLe (semTriple c) (semTriple (firstMaxAux c xs)) :=
        hmax c (by simp)
      refine ⟨?_, ?_, ?_⟩
      · rw [hR]
        rcases List.mem_cons.mp hmem with h | h
        · simp [h]
        · simp [h]
      · intro t ht
        rw [hR]
        rcases List.mem_cons.mp ht with h | h
        · subst h; exact hcr
        · rcases List.mem_cons.mp h with h' | h'
          · subst h'; exact tripleLe_trans hxc hcr
          · exact hmax t (by simp [h'])
      · rw [hR]
        by_cases hceq : semTriple c = semTriple (firstMaxAux c xs)
        · -- the champion itself realises the maximal triple
          simp only [List.find?] at hfind ⊢
          rw [decide_eq_true hceq] at hfind ⊢
          exact hfind
        · have hxne : semTriple x ≠ semTriple (firstMaxAux c xs) := by
            intro hxe
            have h1 : tripleLe (semTriple c) (semTriple x) := hxe ▸ hcr
            have h2 : semTriple x = semTriple c := tripleLe_antisymm hxc h1
            exact hceq (by rw [← hxe, h2])
          simp only [List.find?] at hfind ⊢
          rw [decide_eq_false hceq] at hfind ⊢
          rw [decide_eq_false hxne]
          exact hfind

/-- Every tag surviving the filters matches the version pattern. -/
lemma survivingTags_matches {tags : List Str} {cur t : Str}
    (h : t ∈ survivingTags tags cur) : semverMatches t = true := by
  unfold survivingTags at h
  cases hg : semverGroups cur with
  | none =>
    rw [hg] at h
    unfold filterSemverTags at h
    exact (Bool.and_eq_true _ _ |>.mp (List.mem_filter.mp h).2).1
  | some g =>
    rw [hg] at h
    exact (Bool.and_eq_true _ _ |>.mp (List.mem_filter.mp h).2).1

lemma survivingTags_subset {tags : List Str} {cur t : Str}
    (h : t ∈ survivingTags tags cur) : t ∈ tags := by
  unfold survivingTags at h
  cases hg : semverGroups cur with
  | none => rw [hg] at h; exact (List.mem_filter.mp h).1
  | some g => rw [hg] at h; exact (List.mem_filter.mp h).1

/-- When some tag survives the filters, `findLatestTag` returns the scan
maximum of the surviving list. -/
lemma findLatestTag_spec_surv (tags : List Str) (cur : Str)
    (h : survivingTags tags cur ≠ []) :
    ∃ c cs, survivingTags tags cur = c :: cs ∧
      findLatestTag tags cur = firstMaxAux c cs := by
  obtain ⟨c, cs, hcs⟩ : ∃ c cs, survivingTags tags cur = c :: cs := by
    cases hs : survivingTags tags cur with
    | nil => exact absurd hs h
    | cons c cs => exact ⟨c, cs, rfl⟩
  refine ⟨c, cs, hcs, ?_⟩
  have htags : tags ≠ [] := by
    intro he
    apply h
    subst he
    unfold survivingTags
    cases semverGroups cur <;> rfl
  obtain ⟨t0, ts, hts⟩ : ∃ t0 ts, tags = t0 :: ts := by
    cases tags with
    | nil => exact absurd rfl htags
    | cons t0 ts => exact ⟨t0, ts, rfl⟩
  have hhead : (goSortDesc (survivingTags tags cur)).head? = some (firstMaxAux c cs) := by
    rw [hcs]; exact goSortDesc_head c cs
  have hlen : goSortDesc (survivingTags tags cur) ≠ [] := by
    intro he
    have := goSortDesc_length (survivingTags tags cur)
    rw [he, hcs] at this
    simp at this
  obtain ⟨s, ss, hss⟩ : ∃ s ss, goSortDesc (survivingTags tags cur) = s :: ss := by
    cases hgs : goSortDesc (survivingTags tags cur) with
    | nil => exact absurd hgs hlen
    | cons s ss => exact ⟨s, ss, rfl⟩
  have hs_eq : s = firstMaxAux c cs := by
    rw [hss] at hhead
    simpa using hhead
  subst hts
  unfold findLatestTag
  unfold survivingTags at hss
  cases hg : semverGroups cur with
  | none =>
    rw [hg] at hss
    simp only [hg]
    rw [hss, hs_eq]
  | some g =>
    rw [hg] at hss
    simp only [hg]
    rw [hss, hs_eq]

/-- Packaged form: whenever a tag survives the filters, the result is a
surviving tag, maximal for the parsed-triple order, and the first
surviving tag realising the maximal triple. -/
lemma findLatestTag_surv_spec (tags : List Str) (cur : Str)
    (h : survivingTags tags cur ≠ []) :
    findLatestTag tags cur ∈ survivingTags tags cur ∧
    (∀ t ∈ survivingTags tags cur,
      tripleLe (semTriple t) (semTriple (findLatestTag tags cur))) ∧
    ((survivingTags tags cur).find?
        (fun t => decide (semTriple t = semTriple (findLatestTag tags cur)))
      = some (findLatestTag tags cur)) := by
  obtain ⟨c, cs, hcs, hr⟩ := findLatestTag_spec_surv tags cur h
  have hc : semverMatches c = true := survivingTags_matches (by rw [hcs]; simp)
  have hcs' : ∀ t ∈ cs, semverMatches t = true := fun t ht =>
    survivingTags_matches (by rw [hcs]; simp [ht])
  obtain ⟨h1, h2, h3⟩ := firstMaxAux_spec cs c hc hcs'
  rw [hcs, hr]
  exact ⟨h1, h2, h3⟩

/-- When the pinned tag does not match the pattern and nothing survives
the simple-version filter, the first input tag is returned. -/
lemma findLatestTag_none_fallback (t0 : Str) (ts : List Str) (cur : Str)
    (hg : semverGroups cur = none) (hf : filterSemverTags (t0 :: ts) = []) :
    findLatestTag (t0 :: ts) cur = t0 := by
  simp only [findLatestTag, hg, hf]
  rfl

/-- When the pinned tag matches the pattern and no tag survives the
style filter, the pinned tag is returned unchanged. -/
lemma findLatestTag_matched_fallback (t0 : Str) (ts : List Str) (cur : Str)
    (g : Str × Str × Str) (hg : semverGroups cur = some g)
    (hm : survivingTags (t0 :: ts) cur = []) :
    findLatestTag (t0 :: ts) cur = cur := by
  have hm' : (t0 :: ts).filter
      (fun tag => semverMatches tag && (hasVPfx tag == hasVPfx cur)) = [] := by
    unfold survivingTags at hm
    rw [hg] at hm
    exact hm
  simp only [findLatestTag, hg, hm']
  rfl

/-- Claim C3 (amended).  For every list of tag strings and pinned string,
the result of `findLatestTag` is a member of the input list or the
unchanged pinned value; when the pinned tag does not match the version
pattern and no input tag survives the simple-version filter, it is the
first element of the input list; and the result is the empty string when
the input list is empty.  (The converse of the last clause fails: a
nonempty input whose first-element fallback is itself the empty string
yields the empty string — see the counterexample.) -/
theorem C3_result_domain (tags : List Str) (pinned : Str) :
    (tags = [] → findLatestTag tags pinned = str "") ∧
    (tags ≠ [] → findLatestTag tags pinned ∈ tags ∨ findLatestTag tags pinned = pinned) ∧
    (semverGroups pinned = none → filterSemverTags tags = [] →
      findLatestTag tags pinned = tags.headD (str "")) := by
  refine ⟨?_, ?_, ?_⟩
  · intro h; subst h; rfl
  · intro h
    obtain ⟨t0, ts, rfl⟩ : ∃ t0 ts, tags = t0 :: ts := by
      cases tags with
      | nil => exact absurd rfl h
      | cons t0 ts => exact ⟨t0, ts, rfl⟩
    by_cases hs : survivingTags (t0 :: ts) pinned = []
    · cases hg : semverGroups pinned with
      | none =>
        left
        have hf : filterSemverTags (t0 :: ts) = [] := by
          unfold survivingTags at hs
          rw [hg] at hs
          exact hs
        rw [findLatestTag_none_fallback t0 ts pinned hg hf]
        simp
      | some g =>
        right
        exact findLatestTag_matched_fallback t0 ts pinned g hg hs
    · left
      exact survivingTags_subset (findLatestTag_surv_spec (t0 :: ts) pinned hs).1
  · intro hg hf
    cases tags with
    | nil => rfl
    | cons t0 ts => rw [findLatestTag_none_fallback t0 ts pinned hg hf]; rfl

/-- Claim C3 counterexample to the claim as stated: with the nonempty input
`[""]` and a non-matching pinned tag, the first-element fallback returns
the empty string, so "the result is the empty string exactly when the
input tag list is empty" is false. -/
theorem C3_counterexample :
    findLatestTag [str ""] (str "latest") = str "" ∧ ([str ""] : List Str) ≠ [] := by
  exact ⟨by decide, by decide⟩

/-- Witness for C3 at a concrete input. -/
theorem C3_witness : findLatestTag [] (str "1.0.0") = str "" :=
  (C3_result_domain [] (str "1.0.0")).1 rfl

/-- Claim C4 (amended).  For a pinned tag matching the version pattern, the
surviving candidates are exactly the input tags that match the pattern
and carry the same `v`-prefix presence as the pinned tag; the result is a
surviving candidate when one exists; for a *nonempty* input list with no
surviving candidate the pinned value is returned unchanged (the original
claim omitted "nonempty": on an empty input list the empty string, not
the pinned value, is returned — see the counterexample); and
`SelectLatest({"v1.0.0","v1.1.0","v2.0.0","1.5.0"}, "v1.0.0") = "v2.0.0"`. -/
theorem C4_style_filter (tags : List Str) (pinned : Str) (g : Str × Str × Str)
    (hp : semverGroups pinned = some g) :
    (∀ t, t ∈ survivingTags tags pinned ↔
      (t ∈ tags ∧ semverMatches t = true ∧ hasVPfx t = hasVPfx pinned)) ∧
    (tags ≠ [] → survivingTags tags pinned = [] → findLatestTag tags pinned = pinned) ∧
    (survivingTags tags pinned ≠ [] →
      findLatestTag tags pinned ∈ survivingTags tags pinned) ∧
    findLatestTag [str "v1.0.0", str "v1.1.0", str "v2.0.0", str "1.5.0"] (str "v1.0.0")
      = str "v2.0.0" := by
  refine ⟨?_, ?_, ?_, by decide⟩
  · intro t
    unfold survivingTags
    rw [hp]
    simp [List.mem_filter]
  · intro h hs
    obtain ⟨t0, ts, rfl⟩ : ∃ t0 ts, tags = t0 :: ts := by
      cases tags with
      | nil => exact absurd rfl h
      | cons t0 ts => exact ⟨t0, ts, rfl⟩
    exact findLatestTag_matched_fallback t0 ts pinned g hp hs
  · intro hs
    exact (findLatestTag_surv_spec tags pinned hs).1

/-- Claim C4 counterexample to the claim as stated: with an empty tag list
no candidate survives the style filter, yet the pinned value is *not*
returned — the empty string is. -/
theorem C4_counterexample :
    semverMatches (str "v1.0.0") = true ∧
    survivingTags [] (str "v1.0.0") = [] ∧
    findLatestTag [] (str "v1.0.0") ≠ str "v1.0.0" := by
  exact ⟨by decide, by decide, by decide⟩

/-- Witness for C4 at a concrete input. -/
theorem C4_witness :
    findLatestTag [str "v1.0.0", str "v1.1.0", str "v2.0.0", str "1.5.0"] (str "v1.0.0")
      = str "v2.0.0" :=
  (C4_style_filter [str "v1.0.0", str "v1.1.0", str "v2.0.0", str "1.5.0"]
    (str "v1.0.0") (str "1", str "0", str "0") (by decide)).2.2.2

/-- Claim C5 (amended).  For a pinned string that does not match the version
pattern, the candidates are exactly the input tags that match the pattern
and contain no hyphen; when some candidate survives, the result is a
surviving candidate greatest in the order of the parsed `(major, minor,
patch)` triples, where each component carries the value the code's
`fmt.Sscanf` `%d` scan stores — the decimal value when it fits a signed
64-bit `int`, and 0 when it overflows (so the originally claimed
"numerically greatest" fails for tags with an oversized component: see
the counterexample); when none survives (and the input is nonempty, so
that a first tag exists) the first input tag is returned verbatim; and
`SelectLatest({"latest","v1.0.0","v2.0.0","stable"}, "latest") =
"v2.0.0"`. -/
theorem C5_nonmatching_pinned (tags : List Str) (pinned : Str)
    (hp : semverGroups pinned = none) :
    (∀ t, t ∈ survivingTags tags pinned ↔
      (t ∈ tags ∧ semverMatches t = true ∧ containsChar '-' t = false)) ∧
    (survivingTags tags pinned ≠ [] →
      findLatestTag tags pinned ∈ survivingTags tags pinned ∧
      ∀ t ∈ survivingTags tags pinned,
        tripleLe (semTriple t) (semTriple (findLatestTag tags pinned))) ∧
    (tags ≠ [] → survivingTags tags pinned = [] →
      findLatestTag tags pinned = tags.headD (str "")) ∧
    findLatestTag [str "latest", str "v1.0.0", str "v2.0.0", str "stable"] (str "latest")
      = str "v2.0.0" := by
  refine ⟨?_, ?_, ?_, by decide⟩
  · intro t
    unfold survivingTags filterSemverTags
    rw [hp]
    simp only [List.mem_filter, isSimpleVersion]
    cases hsm : semverMatches t <;> cases hcc : containsChar '-' t <;>
      simp [hsm, hcc]
  · intro hs
    obtain ⟨h1, h2, _⟩ := findLatestTag_surv_spec tags pinned hs
    exact ⟨h1, h2⟩
  · intro h hs
    obtain ⟨t0, ts, rfl⟩ : ∃ t0 ts, tags = t0 :: ts := by
      cases tags with
      | nil => exact absurd rfl h
      | cons t0 ts => exact ⟨t0, ts, rfl⟩
    have hf : filterSemverTags (t0 :: ts) = [] := by
      unfold survivingTags at hs
      rw [hp] at hs
      exact hs
    rw [findLatestTag_none_fallback t0 ts pinned hp hf]
    rfl

/-- Witness for C5 at a concrete input. -/
theorem C5_witness :
    findLatestTag [str "latest", str "v1.0.0", str "v2.0.0", str "stable"] (str "latest")
      = str "v2.0.0" :=
  (C5_nonmatching_pinned [str "latest", str "v1.0.0", str "v2.0.0", str "stable"]
    (str "latest") (by decide)).2.2.2

/-- Claim C5 counterexample to the claim as stated: the major component of
the tag `"99999999999999999999"` exceeds a signed 64-bit `int`, so the
code's `fmt.Sscanf` `%d` scan errors and leaves it at 0, and the
numerically far smaller survivor `"1"` is returned — not the numerically
greatest survivor. -/
theorem C5_counterexample :
    findLatestTag [str "99999999999999999999", str "1"] (str "latest") = str "1" ∧
    str "99999999999999999999" ∈
      survivingTags [str "99999999999999999999", str "1"] (str "latest") ∧
    digitsToNat (str "1") < digitsToNat (str "99999999999999999999") := by
  exact ⟨by decide, by decide, by decide⟩

example : findLatestTag [str "1.0", str "2.0", str "2.0.0"] (str "1.0") = str "2.0" := by decide

example : findLatestTag [str "1.0.0", str "1.1.0", str "1.2.0", str "2.0.0"] (str "1.0.0")
    = str "2.0.0" := by decide

/-! ## Image-string parsing (`parseImageString` from the scanner) -/

/-- `scanner.ImageInfo`. -/
structure ImageInfo where
  registry : Str
  repository : Str
  tag : Str
  fullImage : Str
  path : Str
  line : Nat
  skipped : Bool
deriving DecidableEq, Repr

/-- Split a string at the first occurrence of a character
(`strings.SplitN(s, c, 2)` when it returns two parts). -/
def splitFirst (c : Char) : Str → Option (Str × Str)
  | [] => none
  | x :: xs =>
    if x = c then some ([], xs)
    else (splitFirst c xs).map fun p => (x :: p.1, p.2)

lemma splitFirst_eq_none {c : Char} {s : Str} :
    splitFirst c s = none ↔ containsChar c s = false := by
  induction s with
  | nil => simp [splitFirst, containsChar]
  | cons x xs ih =>
    by_cases hx : x = c
    · subst hx
      simp [splitFirst, containsChar]
    · have hcx : (c == x) = false := by
        simp only [beq_eq_false_iff_ne, ne_eq]
        exact fun h => hx h.symm
      simp only [splitFirst, if_neg hx, containsChar, List.contains_cons, hcx,
        Bool.false_or]
      cases hsp : splitFirst c xs with
      | none =>
        have hcc := ih.mp hsp
        simp only [containsChar] at hcc
        exact ⟨fun _ => hcc, fun _ => rfl⟩
      | some p =>
        refine ⟨fun h => Option.noConfusion h, fun hf => ?_⟩
        have hn := ih.mpr hf
        rw [hsp] at hn
        exact Option.noConfusion hn

lemma splitFirst_eq_some {c : Char} {s : Str} (h : containsChar c s = true) :
    splitFirst c s = some (s.takeWhile (· ≠ c), (s.dropWhile (· ≠ c)).tail) := by
  induction s with
  | nil => simp [containsChar] at h
  | cons x xs ih =>
    by_cases hx : x = c
    · subst hx
      simp [splitFirst, List.takeWhile, List.dropWhile]
    · have hmem : containsChar c xs = true := by
        simp only [containsChar, List.contains_cons] at h
        rcases Bool.or_eq_true_iff.mp h with h1 | h1
        · exact absurd (Eq.symm (by simpa using h1)) hx
        · exact h1
      simp only [splitFirst, if_neg hx, ih hmem, Option.map_some]
      simp [List.takeWhile, List.dropWhile, hx]

/-- The registry-stripping block of `parseImageString`
(`strings.SplitN(imageStr, "/", 2)` plus the host test on the first
segment). -/
def imgRegistrySplit (imageStr : Str) : Str × Str :=
  match splitFirst '/' imageStr with
  | some (seg, after) =>
    if containsChar '.' seg || containsChar ':' seg then (seg, after)
    else (str "docker.io", imageStr)
  | none => (str "docker.io", imageStr)

/-- The repository/tag block of `parseImageString`
(`strings.SplitN(imageStr, ":", 2)`, tag defaulting to `latest`). -/
def imgTagSplit (rest : Str) : Str × Str :=
  match splitFirst ':' rest with
  | some (a, b) => (a, b)
  | none => (rest, str "latest")

/-- `parseImageString` from the scanner: trims, rejects empty/`latest`/
path-like/bare strings, strips an explicit registry host, splits
repository and tag at the first `:`, and marks excluded organisations
as skipped. -/
def parseImageString (imageStr0 path : Str) (line : Nat) : Option ImageInfo :=
  let imageStr := goTrimSpace imageStr0
  if imageStr = [] ∨ imageStr = str "latest" then none
  else if imageStr.head? = some '/' ∨ imageStr.head? = some '.' then none
  else if ¬ containsChar '/' imageStr ∧ ¬ containsChar ':' imageStr then none
  else
    let full := imageStr
    let (registry, rest) := imgRegistrySplit imageStr
    let (repository, tag) := imgTagSplit rest
    some ⟨registry, repository, tag, full, path, line,
      containsSub (str "thinkportgmbh") repository⟩

/-- The acceptance condition of claim C7: non-empty after trimming, not
the literal `latest`, not starting with `/` or `.`, containing at least
one `/` or `:`. -/
def specAccepts (s : Str) : Prop :=
  s ≠ [] ∧ s ≠ str "latest" ∧ s.head? ≠ some '/' ∧ s.head? ≠ some '.' ∧
  (containsChar '/' s = true ∨ containsChar ':' s = true)

instance (s : Str) : Decidable (specAccepts s) := by
  unfold specAccepts
  infer_instance

/-- The registry rule of claim C7: if the string contains `/` and the
segment before the first `/` contains a `.` or `:`, that segment is the
registry host; otherwise `docker.io`. -/
def specRegistrySplit (s : Str) : Str × Str :=
  let seg := s.takeWhile (· ≠ '/')
  if containsChar '/' s && (containsChar '.' seg || containsChar ':' seg) then
    (seg, (s.dropWhile (· ≠ '/')).tail)
  else (str "docker.io", s)

/-- Modelled from the claim (C7), amended at one point: the remainder is
split into repository and tag at the *first* `:` (the claim's "last/only
`:`" is refuted by `parseImageString` on inputs whose remainder contains
two colons; see the counterexample). -/
def specParseImageFirst (s0 path : Str) (line : Nat) : Option ImageInfo :=
  let s := goTrimSpace s0
  if specAccepts s then
    let (reg, rest) := specRegistrySplit s
    let (repo, tag) :=
      if containsChar ':' rest then
        (rest.takeWhile (· ≠ ':'), (rest.dropWhile (· ≠ ':')).tail)
      else (rest, str "latest")
    some ⟨reg, repo, tag, s, path, line, containsSub (str "thinkportgmbh") repo⟩
  else none

/-- Modelled from the spec: claim C7's image-string parse taken
verbatim, with the remainder split into repository and tag at the
*last* `:` as the claim states. -/
def specParseImageLast (s0 path : Str) (line : Nat) : Option ImageInfo :=
  let s := goTrimSpace s0
  if specAccepts s then
    let (reg, rest) := specRegistrySplit s
    let (repo, tag) :=
      if containsChar ':' rest then
        (((rest.reverse.dropWhile (· ≠ ':')).tail).reverse,
          (rest.reverse.takeWhile (· ≠ ':')).reverse)
      else (rest, str "latest")
    some ⟨reg, repo, tag, s, path, line, containsSub (str "thinkportgmbh") repo⟩
  else none

/-! ## Dockerfile extraction (`parseDockerfile`, `resolveDockerfileVars`)

The Go code scans the file line by line (`bufio.Scanner`); a file is
modelled as its list of lines.  The three regular expressions
(`argPattern`, `fromPattern`, `varPattern`) are unfolded into
deterministic recognisers; the greedy character classes translate to
`takeWhile`/`dropWhile` (the backtracking alternatives of the original
patterns can never succeed where the greedy parse fails, as argued in
each recogniser's comment). -/

/-- The regexp character class `\s` (`[\t\n\f\r ]`; note that `\v` is
*not* a regexp space, unlike for `strings.TrimSpace`). -/
def isSpaceRe (c : Char) : Bool :=
  c = '\t' || c = '\n' || c = '\x0c' || c = '\r' || c = ' '

/-- The regexp character class `\w` (`[0-9A-Za-z_]`). -/
def isWordChar (c : Char) : Bool := c.isAlphanum || c = '_'

/-- The regexp character class `[^}]`. -/
def isNotRBrace (c : Char) : Bool := c != '}'

/-- `strings.Trim(s, quote-cutset)`: strip any run of `"` or `'` from
both ends. -/
def trimQuotes (s : Str) : Str :=
  let isQ := fun c : Char => c = '"' || c = '\''
  ((s.dropWhile isQ).reverse.dropWhile isQ).reverse

/-- `argPattern = ^\s*ARG\s+(\w+)(?:=(.*))?$` applied to one line:
returns the variable name and the raw text after `=` (empty when the
`ARG` has no value).  After the maximal `\w+` run, the next character
must be `=` or the end of the line; shortening the greedy run only
exposes a word character, which is neither, so greedy parsing is
complete. -/
def parseArgLine (l : Str) : Option (Str × Str) :=
  match l.dropWhile isSpaceRe with
  | 'A' :: 'R' :: 'G' :: rest =>
    match rest with
    | c :: _ =>
      if isSpaceRe c then
        let r2 := rest.dropWhile isSpaceRe
        let w := r2.takeWhile isWordChar
        if w = [] then none
        else
          match r2.dropWhile isWordChar with
          | [] => some (w, [])
          | '=' :: v => some (w, v)
          | _ => none
      else none
    | [] => none
  | _ => none

/-- The optional `(?:\s+AS\s+(\w+))?` clause of `fromPattern` (note the
case-sensitive literal `AS`). -/
def parseAliasOpt : Str → Option Str
  | c :: rest =>
    if isSpaceRe c then
      match (c :: rest).dropWhile isSpaceRe with
      | 'A' :: 'S' :: r2 =>
        match r2 with
        | d :: _ =>
          if isSpaceRe d then
            let w := (r2.dropWhile isSpaceRe).takeWhile isWordChar
            if w = [] then none else some w
          else none
        | [] => none
      | _ => none
    else none
  | [] => none

/-- `fromPattern = ^\s*FROM\s+(\S+)(?:\s+AS\s+(\w+))?` applied to one
line: the image token (maximal non-space run) and the optional stage
alias.  Shortening the greedy `\S+` run exposes a non-space character
where the alias clause needs `\s+`, so greedy parsing is complete. -/
def parseFromLine (l : Str) : Option (Str × Option Str) :=
  match l.dropWhile isSpaceRe with
  | 'F' :: 'R' :: 'O' :: 'M' :: rest =>
    match rest with
    | c :: _ =>
      if isSpaceRe c then
        let r2 := rest.dropWhile isSpaceRe
        let tok := r2.takeWhile fun ch => !isSpaceRe ch
        if tok = [] then none
        else some (tok, parseAliasOpt (r2.dropWhile fun ch => !isSpaceRe ch))
      else none
    | [] => none
  | _ => none

/-- One match of `varPattern = \$\{?(\w+)(?::-([^}]*))?\}?` starting
right after a `$`: returns `(matched text, name, default, remainder)`.
If `{` was consumed but no word character follows, backtracking to an
empty `\{?` places `\w+` at the `{`, which also fails, so returning
`none` is faithful. -/
def parseVarRef (r : Str) : Option (Str × Str × Str × Str) :=
  let (brace, r1) :=
    match r with
    | '{' :: t => (true, t)
    | _ => (false, r)
  let w := r1.takeWhile isWordChar
  if w = [] then none
  else
    let r2 := r1.dropWhile isWordChar
    let (hasDef, d, r3) :=
      match r2 with
      | ':' :: '-' :: t => (true, t.takeWhile isNotRBrace, t.dropWhile isNotRBrace)
      | _ => (false, [], r2)
    let (closeB, r4) :=
      match r3 with
      | '}' :: t => (true, t)
      | _ => (false, r3)
    let matched := '$' :: ((if brace then ['{'] else []) ++ w ++
      (if hasDef then ':' :: '-' :: d else []) ++ (if closeB then ['}'] else []))
    some (matched, w, d, r4)

/-- `varPattern.ReplaceAllStringFunc` with the resolution function of
`resolveDockerfileVars`: scan left to right, replace each match by the
tracked ARG value if one is recorded (ARG values are only recorded when
non-empty), else by the inline default if non-empty, else keep the
matched text; replacements are not rescanned.  The `fuel` argument (one
unit per step, initialised to the string length, each step consuming at
least one character) makes the recursion structural; the fuel can never
run out. -/
def resolveVarsFuel (args : List (Str × Str)) : Nat → Str → Str
  | 0, s => s
  | _ + 1, [] => []
  | fuel + 1, '$' :: r =>
    (match parseVarRef r with
    | none => '$' :: resolveVarsFuel args fuel r
    | some (matched, w, d, rest) =>
      (match args.lookup w with
        | some v => if v ≠ [] then v else if d ≠ [] then d else matched
        | none => if d ≠ [] then d else matched) ++ resolveVarsFuel args fuel rest)
  | fuel + 1, c :: r => c :: resolveVarsFuel args fuel r

/-- `resolveDockerfileVars` from the scanner. -/
def resolveVars (args : List (Str × Str)) (s : Str) : Str :=
  resolveVarsFuel args s.length s

/-- The alias registration of one `FROM` line
(`aliases[strings.ToLower(matches[2])] = true` when the optional `AS`
group matched). -/
def registerAlias (al : Option Str) (aliases : List Str) : List Str :=
  match al with
  | some a => lowerStr a :: aliases
  | none => aliases

/-- The scan loop of `parseDockerfile`: line counter, tracked ARG
defaults (map modelled as an association list, newest binding first)
and the set of lowercased stage aliases.  The alias of the current line
is registered *before* the resolved reference is tested, as in the
source. -/
def dockerLoop (path : Str) :
    Nat → List (Str × Str) → List Str → List Str → List ImageInfo
  | _, _, _, [] => []
  | n, args, aliases, line :: rest =>
    let ln := n + 1
    let l := goTrimSpace line
    if l = [] ∨ l.head? = some '#' then dockerLoop path ln args aliases rest
    else
      match parseArgLine l with
      | some (name, rawV) =>
        let v := trimQuotes (goTrimSpace rawV)
        let args' := if v ≠ [] then (name, v) :: args else args
        dockerLoop path ln args' aliases rest
      | none =>
        match parseFromLine l with
        | some (tok, al) =>
          let aliases' := registerAlias al aliases
          let resolved := resolveVars args tok
          if containsChar '$' resolved then dockerLoop path ln args aliases' rest
          else if lowerStr resolved = str "scratch" then
            dockerLoop path ln args aliases' rest
          else if aliases'.contains (lowerStr resolved) then
            dockerLoop path ln args aliases' rest
          else
            match parseImageString resolved path ln with
            | some img => img :: dockerLoop path ln args aliases' rest
            | none => dockerLoop path ln args aliases' rest
        | none => dockerLoop path ln args aliases rest

/-- `parseDockerfile` from the scanner, over the file's list of lines. -/
def parseDockerfile (path : Str) (lines : List Str) : List ImageInfo :=
  dockerLoop path 0 [] [] lines

example :
    parseDockerfile (str "D") [str "ARG V=1.25", str "FROM nginx:${V}"] =
      [⟨str "docker.io", str "nginx", str "1.25", str "nginx:1.25", str "D", 2, false⟩] := by
  decide

example :
    parseDockerfile (str "D")
      [str "FROM golang:1.21 AS b", str "FROM b AS t", str "FROM alpine:3.19"] =
      [⟨str "docker.io", str "golang", str "1.21", str "golang:1.21", str "D", 1, false⟩,
       ⟨str "docker.io", str "alpine", str "3.19", str "alpine:3.19", str "D", 3, false⟩] := by
  decide

example :
    parseDockerfile (str "D")
      [str "ARG BASE_IMAGE=nginx:1.25", str "FROM $BASE_IMAGE"] =
      [⟨str "docker.io", str "nginx", str "1.25", str "nginx:1.25", str "D", 2, false⟩] := by
  decide

example :
    parseDockerfile (str "D") [str "FROM ${BASE:-alpine:3.19}"] =
      [⟨str "docker.io", str "alpine", str "3.19", str "alpine:3.19", str "D", 1, false⟩] := by
  decide

example :
    parseDockerfile (str "D")
      [str "ARG BASE_IMAGE", str "FROM $BASE_IMAGE", str "FROM alpine:3.19"] =
      [⟨str "docker.io", str "alpine", str "3.19", str "alpine:3.19", str "D", 3, false⟩] := by
  decide

example :
    parseDockerfile (str "D")
      [str "# Build stage", str "FROM golang:1.21 AS builder", str "",
       str "# Runtime stage", str "FROM alpine:3.19"] =
      [⟨str "docker.io", str "golang", str "1.21", str "golang:1.21", str "D", 2, false⟩,
       ⟨str "docker.io", str "alpine", str "3.19", str "alpine:3.19", str "D", 5, false⟩] := by
  decide

example :
    parseDockerfile (str "D")
      [str "ARG BASE=\"nginx:1.25\"", str "FROM $BASE"] =
      [⟨str "docker.io", str "nginx", str "1.25", str "nginx:1.25", str "D", 2, false⟩] := by
  decide

example :
    parseDockerfile (str "D") [str "FROM golang:1.21 AS builder", str "FROM scratch"] =
      [⟨str "docker.io", str "golang", str "1.21", str "golang:1.21", str "D", 1, false⟩] := by
  decide

/-- The shape `${W:-D}` of a variable occurrence with an inline
default. -/
def varWithDefault (w d : Str) : Str :=
  '$' :: '{' :: (w ++ ':' :: '-' :: (d ++ ['}']))

/-- The shape `${W}` of a plain braced variable occurrence. -/
def plainBraceVar (w : Str) : Str := '$' :: '{' :: (w ++ ['}'])

lemma takeWhile_append_stop {p : Char → Bool} (w : Str) (c : Char) (t : Str)
    (hw : ∀ x ∈ w, p x = true) (hc : p c = false) :
    (w ++ c :: t).takeWhile p = w ∧ (w ++ c :: t).dropWhile p = c :: t := by
  induction w with
  | nil => simp [List.takeWhile, List.dropWhile, hc]
  | cons x xs ih =>
    have hx : p x = true := hw x (by simp)
    have ih' := ih fun y hy => hw y (by simp [hy])
    simp [List.takeWhile, List.dropWhile, hx, ih'.1, ih'.2]

lemma parseVarRef_withDefault (w d : Str) (hw0 : w ≠ [])
    (hw : ∀ c ∈ w, isWordChar c = true) (hd : ∀ c ∈ d, isNotRBrace c = true) :
    parseVarRef ('{' :: (w ++ ':' :: '-' :: (d ++ ['}']))) =
      some (varWithDefault w d, w, d, []) := by
  have h1 := takeWhile_append_stop (p := isWordChar) w ':' ('-' :: (d ++ ['}']))
    hw (by decide)
  have h2 := takeWhile_append_stop (p := isNotRBrace) d '}' [] hd (by decide)
  unfold parseVarRef
  simp only [h1.1, h1.2, if_neg hw0, h2.1, h2.2]
  simp [varWithDefault]

lemma parseVarRef_plain (w : Str) (hw0 : w ≠ [])
    (hw : ∀ c ∈ w, isWordChar c = true) :
    parseVarRef ('{' :: (w ++ ['}'])) = some (plainBraceVar w, w, [], []) := by
  have h1 := takeWhile_append_stop (p := isWordChar) w '}' [] hw (by decide)
  unfold parseVarRef
  simp only [h1.1, h1.2, if_neg hw0]
  simp [plainBraceVar]

lemma resolveVarsFuel_nil (args : List (Str × Str)) :
    ∀ f, resolveVarsFuel args f [] = [] := by
  intro f; cases f <;> rfl

/-- The replacement applied to one `${W:-D}` occurrence standing alone:
tracked ARG value first, then the inline default, then the text itself. -/
lemma resolveVars_withDefault (args : List (Str × Str)) (w d : Str)
    (hw0 : w ≠ []) (hw : ∀ c ∈ w, isWordChar c = true)
    (hd : ∀ c ∈ d, isNotRBrace c = true) :
    resolveVars args (varWithDefault w d) =
      (match args.lookup w with
        | some v => if v ≠ [] then v else if d ≠ [] then d else varWithDefault w d
        | none => if d ≠ [] then d else varWithDefault w d) := by
  unfold resolveVars
  conv_lhs =>
    rw [show varWithDefault w d =
      '$' :: ('{' :: (w ++ ':' :: '-' :: (d ++ ['}']))) from rfl]
  rw [List.length_cons]
  simp only [resolveVarsFuel, parseVarRef_withDefault w d hw0 hw hd]
  cases args.lookup w with
  | none => simp [resolveVarsFuel_nil]
  | some v => simp [resolveVarsFuel_nil]

/-- The replacement applied to one `${W}` occurrence standing alone:
tracked ARG value if recorded, else left unresolved. -/
lemma resolveVars_plain (args : List (Str × Str)) (w : Str)
    (hw0 : w ≠ []) (hw : ∀ c ∈ w, isWordChar c = true) :
    resolveVars args (plainBraceVar w) =
      (match args.lookup w with
        | some v => if v ≠ [] then v else plainBraceVar w
        | none => plainBraceVar w) := by
  unfold resolveVars
  conv_lhs =>
    rw [show plainBraceVar w = '$' :: ('{' :: (w ++ ['}'])) from rfl]
  rw [List.length_cons]
  simp only [resolveVarsFuel, parseVarRef_plain w hw0 hw]
  cases args.lookup w with
  | none => simp [resolveVarsFuel_nil]
  | some v => simp [resolveVarsFuel_nil]

lemma mem_of_mem_goTrimSpace {c : Char} {s : Str} (h : c ∈ goTrimSpace s) :
    c ∈ s := by
  unfold goTrimSpace at h
  rw [List.mem_reverse] at h
  have h1 := (List.dropWhile_suffix _).sublist.subset h
  rw [List.mem_reverse] at h1
  exact (List.dropWhile_suffix _).sublist.subset h1

lemma containsChar_goTrimSpace {c : Char} {s : Str}
    (h : containsChar c s = false) : containsChar c (goTrimSpace s) = false := by
  cases hv : containsChar c (goTrimSpace s) with
  | false => rfl
  | true =>
    have hmem : c ∈ goTrimSpace s := by simpa [containsChar] using hv
    have hs : containsChar c s = true := by
      simpa [containsChar] using mem_of_mem_goTrimSpace hmem
    rw [hs] at h
    exact h

/-- A successfully parsed image reference records the trimmed input as
its `FullImage`. -/
lemma parseImageString_fullImage {s p : Str} {n : Nat} {img : ImageInfo}
    (h : parseImageString s p n = some img) : img.fullImage = goTrimSpace s := by
  simp only [parseImageString] at h
  split_ifs at h with h1 h2 h3
  rcases hE : imgRegistrySplit (goTrimSpace s) with ⟨reg, rest⟩
  rw [hE] at h
  rcases hT : imgTagSplit rest with ⟨repo, tag⟩
  rw [hT] at h
  injection h with h'
  rw [← h']

/-- No reference emitted by `parseDockerfile` carries an unresolved
variable: a resolved reference still containing `$` is dropped. -/
lemma dockerLoop_no_unresolved (path : Str) :
    ∀ (lines : List Str) (n : Nat) (args : List (Str × Str)) (aliases : List Str)
      (img : ImageInfo), img ∈ dockerLoop path n args aliases lines →
      containsChar '$' img.fullImage = false := by
  intro lines
  induction lines with
  | nil =>
    intro n args aliases img h
    simp [dockerLoop] at h
  | cons line rest ih =>
    intro n args aliases img h
    simp only [dockerLoop] at h
    split at h
    · exact ih _ _ _ _ h
    · split at h
      · exact ih _ _ _ _ h
      · split at h
        · split at h
          · exact ih _ _ _ _ h
          · rename_i hdollar
            split at h
            · exact ih _ _ _ _ h
            · rename_i hscratch
              split at h
              · exact ih _ _ _ _ h
              · rename_i halias
                split at h
                · rename_i img' hpi
                  rcases List.mem_cons.mp h with hh | hh
                  · subst hh
                    rw [parseImageString_fullImage hpi]
                    exact containsChar_goTrimSpace (by simpa using hdollar)
                  · exact ih _ _ _ _ hh
                · exact ih _ _ _ _ h
        · exact ih _ _ _ _ h

lemma char_toNat_ofNat_valid (n : Nat) (h : n.isValidChar) :
    (Char.ofNat n).toNat = n := by
  rw [Char.ofNat, dif_pos h]; rfl

/-- `Char.toLower` either leaves the code point unchanged or shifts an
upper-case basic-latin letter down by 32. -/
lemma char_toLower_toNat (c : Char) :
    (Char.toLower c).toNat = c.toNat ∨
      ((Char.toLower c).toNat = c.toNat + 32 ∧ 65 ≤ c.toNat ∧ c.toNat ≤ 90) := by
  unfold Char.toLower
  simp only []
  split
  · rename_i h
    right
    have hv : (c.toNat + 32).isValidChar := by
      left
      omega
    rw [char_toNat_ofNat_valid _ hv]
    exact ⟨rfl, h.1, h.2⟩
  · left; rfl

/-- The code points of the `\w` class: digits, upper-case letters, the
underscore, lower-case letters. -/
lemma isWordChar_toNat {c : Char} (h : isWordChar c = true) :
    (48 ≤ c.toNat ∧ c.toNat ≤ 57) ∨ (65 ≤ c.toNat ∧ c.toNat ≤ 90) ∨
      c.toNat = 95 ∨ (97 ≤ c.toNat ∧ c.toNat ≤ 122) := by
  unfold isWordChar at h
  rcases Bool.or_eq_true_iff.mp h with h1 | h1
  · unfold Char.isAlphanum Char.isAlpha Char.isUpper Char.isLower Char.isDigit at h1
    rcases Bool.or_eq_true_iff.mp h1 with h2 | h2
    · rcases Bool.or_eq_true_iff.mp h2 with h3 | h3 <;>
        rcases Bool.and_eq_true_iff.mp h3 with ⟨ha, hb⟩
      · right; left
        exact ⟨UInt32.le_toNat_of_le (by decide) (of_decide_eq_true ha),
          UInt32.toNat_le_of_le (by decide) (of_decide_eq_true hb)⟩
      · right; right; right
        exact ⟨UInt32.le_toNat_of_le (by decide) (of_decide_eq_true ha),
          UInt32.toNat_le_of_le (by decide) (of_decide_eq_true hb)⟩
    · rcases Bool.and_eq_true_iff.mp h2 with ⟨ha, hb⟩
      left
      exact ⟨UInt32.le_toNat_of_le (by decide) (of_decide_eq_true ha),
        UInt32.toNat_le_of_le (by decide) (of_decide_eq_true hb)⟩
  · right; right; left
    have : c = '_' := by simpa using h1
    subst this
    rfl

/-- Lowercasing a word character never yields `/` or `:` (`toLower`
only moves code points 65–90 to 97–122). -/
lemma toLower_word_not_sep {c : Char} (h : isWordChar c = true) :
    Char.toLower c ≠ '/' ∧ Char.toLower c ≠ ':' := by
  have hr := isWordChar_toNat h
  have h47 : ('/' : Char).toNat = 47 := rfl
  have h58 : (':' : Char).toNat = 58 := rfl
  constructor <;> intro heq <;> have hn := congrArg Char.toNat heq <;>
    rw [h47] at * <;>
    rcases char_toLower_toNat c with h1 | ⟨h2, h3, h4⟩ <;> omega

/-- Lowercasing preserves the presence of a character that `toLower`
fixes. -/
lemma containsChar_lowerStr_of {c : Char} (hc : Char.toLower c = c) {s : Str}
    (h : containsChar c s = true) : containsChar c (lowerStr s) = true := by
  have hmem : c ∈ s := by simpa [containsChar] using h
  have hm2 : c ∈ lowerStr s := by
    unfold lowerStr
    rw [List.mem_map]
    exact ⟨c, hmem, hc⟩
  simpa [containsChar] using hm2

/-- The lowercased form of an all-word-character string avoids any
character that no word character lowers to. -/
lemma lowerStr_word_no_char {a : Str} (hw : ∀ c ∈ a, isWordChar c = true)
    {x : Char} (hx : ∀ c : Char, isWordChar c = true → Char.toLower c ≠ x) :
    containsChar x (lowerStr a) = false := by
  cases hv : containsChar x (lowerStr a) with
  | false => rfl
  | true =>
    have hmem : x ∈ lowerStr a := by simpa [containsChar] using hv
    unfold lowerStr at hmem
    rw [List.mem_map] at hmem
    obtain ⟨c, hc, hcx⟩ := hmem
    exact absurd hcx (hx c (hw c hc))

/-- A captured stage alias is a `\w+` run: all its characters are word
characters. -/
lemma parseAliasOpt_word {r a : Str} (h : parseAliasOpt r = some a) :
    ∀ c ∈ a, isWordChar c = true := by
  cases r with
  | nil => exact absurd h (by simp [parseAliasOpt])
  | cons c0 rest =>
    simp only [parseAliasOpt] at h
    split at h
    · split at h
      · split at h
        · split at h
          · split at h
            · exact absurd h (Option.noConfusion)
            · injection h with h'
              subst h'
              intro c hc
              exact List.mem_takeWhile_imp hc
          · exact absurd h (Option.noConfusion)
        · exact absurd h (Option.noConfusion)
      · exact absurd h (Option.noConfusion)
    · exact absurd h (Option.noConfusion)

/-- The alias captured by a `FROM ... AS w` line is a `\w+` run. -/
lemma parseFromLine_alias_word {l tok a : Str}
    (h : parseFromLine l = some (tok, some a)) : ∀ c ∈ a, isWordChar c = true := by
  simp only [parseFromLine] at h
  split at h
  · split at h
    · split at h
      · split at h
        · exact absurd h (Option.noConfusion)
        · injection h with h'
          rw [Prod.mk.injEq] at h'
          exact parseAliasOpt_word h'.2
      · exact absurd h (Option.noConfusion)
    · exact absurd h (Option.noConfusion)
  · exact absurd h (Option.noConfusion)

/-- An accepted image string contains a `/` or a `:` — a bare word (such
as `scratch` or a stage alias name) is always rejected. -/
lemma parseImageString_sep {s p : Str} {n : Nat} {img : ImageInfo}
    (h : parseImageString s p n = some img) :
    containsChar '/' img.fullImage = true ∨ containsChar ':' img.fullImage = true := by
  have hf := parseImageString_fullImage h
  simp only [parseImageString] at h
  split_ifs at h with h1 h2 h3
  rw [hf]
  rcases not_and_or.mp h3 with hc | hc
  · exact Or.inl (by simpa using not_not.mp hc)
  · exact Or.inr (by simpa using not_not.mp hc)

/-- Every reference the scan loop emits was accepted by
`parseImageString` at some line. -/
lemma dockerLoop_emitted (path : Str) :
    ∀ (lines : List Str) (n : Nat) (args : List (Str × Str)) (aliases : List Str)
      (img : ImageInfo), img ∈ dockerLoop path n args aliases lines →
      ∃ (s : Str) (ln : Nat), parseImageString s path ln = some img := by
  intro lines
  induction lines with
  | nil =>
    intro n args aliases img h
    simp [dockerLoop] at h
  | cons line rest ih =>
    intro n args aliases img h
    simp only [dockerLoop] at h
    split at h
    · exact ih _ _ _ _ h
    · split at h
      · exact ih _ _ _ _ h
      · split at h
        · split at h
          · exact ih _ _ _ _ h
          · split at h
            · exact ih _ _ _ _ h
            · split at h
              · exact ih _ _ _ _ h
              · split at h
                · rename_i img' hpi
                  rcases List.mem_cons.mp h with hh | hh
                  · subst hh
                    exact ⟨_, _, hpi⟩
                  · exact ih _ _ _ _ hh
                · exact ih _ _ _ _ h
        · exact ih _ _ _ _ h

/-- Claim C8.  Dockerfile extraction: `$`-placeholders in a `FROM`
reference are resolved from the tracked ARG default first, else from
the inline `:-` default, else left in place (and a reference still
containing `$` is never emitted); `ARG V=1.25` followed by
`FROM nginx:${V}` emits the single reference `nginx` with tag `1.25` at
line 2; a multi-stage file emits golang and alpine only, with the stage
aliases `b`, `t` never emitted as images.  Drop rules, in general: a
`FROM` line whose resolved reference still contains `$`, equals
`scratch` case-insensitively, or is already registered in the alias set
emits no reference (it only registers its own alias); consequently no
emitted reference lowercases to `scratch`, and no emitted reference
lowercases to the lowercased alias of any `FROM ... AS w` line
(previously seen or not); finally, a `FROM scratch` line after a tagged
stage emits nothing. -/
theorem C8_dockerfile (p : Str) :
    (∀ (lines : List Str) (img : ImageInfo), img ∈ parseDockerfile p lines →
      containsChar '$' img.fullImage = false) ∧
    (∀ (args : List (Str × Str)) (w d v : Str), w ≠ [] →
      (∀ c ∈ w, isWordChar c = true) → (∀ c ∈ d, isNotRBrace c = true) →
      args.lookup w = some v → v ≠ [] →
      resolveVars args (varWithDefault w d) = v) ∧
    (∀ (args : List (Str × Str)) (w d : Str), w ≠ [] →
      (∀ c ∈ w, isWordChar c = true) → (∀ c ∈ d, isNotRBrace c = true) → d ≠ [] →
      args.lookup w = none →
      resolveVars args (varWithDefault w d) = d) ∧
    (∀ (args : List (Str × Str)) (w : Str), w ≠ [] →
      (∀ c ∈ w, isWordChar c = true) → args.lookup w = none →
      resolveVars args (plainBraceVar w) = plainBraceVar w) ∧
    parseDockerfile p [str "ARG V=1.25", str "FROM nginx:${V}"] =
      [⟨str "docker.io", str "nginx", str "1.25", str "nginx:1.25", p, 2, false⟩] ∧
    parseDockerfile p
        [str "FROM golang:1.21 AS b", str "FROM b AS t", str "FROM alpine:3.19"] =
      [⟨str "docker.io", str "golang", str "1.21", str "golang:1.21", p, 1, false⟩,
       ⟨str "docker.io", str "alpine", str "3.19", str "alpine:3.19", p, 3, false⟩] ∧
    (∀ (n : Nat) (args : List (Str × Str)) (aliases : List Str) (line : Str)
      (rest : List Str) (tok : Str) (al : Option Str),
      ¬ (goTrimSpace line = [] ∨ (goTrimSpace line).head? = some '#') →
      parseArgLine (goTrimSpace line) = none →
      parseFromLine (goTrimSpace line) = some (tok, al) →
      (containsChar '$' (resolveVars args tok) = true ∨
        lowerStr (resolveVars args tok) = str "scratch" ∨
        (registerAlias al aliases).contains (lowerStr (resolveVars args tok)) = true) →
      dockerLoop p n args aliases (line :: rest) =
        dockerLoop p (n + 1) args (registerAlias al aliases) rest) ∧
    (∀ (lines : List Str) (img : ImageInfo), img ∈ parseDockerfile p lines →
      lowerStr img.fullImage ≠ str "scratch") ∧
    (∀ (lines : List Str) (img : ImageInfo), img ∈ parseDockerfile p lines →
      ∀ (r tok a : Str), parseFromLine r = some (tok, some a) →
        lowerStr img.fullImage ≠ lowerStr a) ∧
    parseDockerfile p [str "FROM golang:1.21 AS builder", str "FROM scratch"] =
      [⟨str "docker.io", str "golang", str "1.21", str "golang:1.21", p, 1, false⟩] := by
  refine ⟨fun lines img h => dockerLoop_no_unresolved p lines 0 [] [] img h,
    ?_, ?_, ?_, rfl, rfl, ?_, ?_, ?_, rfl⟩
  · intro args w d v hw0 hw hd hl hv
    rw [resolveVars_withDefault args w d hw0 hw hd, hl]
    simp [hv]
  · intro args w d hw0 hw hd hd0 hl
    rw [resolveVars_withDefault args w d hw0 hw hd, hl]
    simp [hd0]
  · intro args w hw0 hw hl
    rw [resolveVars_plain args w hw0 hw, hl]
  · intro n args aliases line rest tok al h0 harg hfrom hdrop
    simp only [dockerLoop, harg, hfrom]
    rw [if_neg h0]
    by_cases hd : containsChar '$' (resolveVars args tok) = true
    · rw [if_pos hd]
    · rw [if_neg hd]
      by_cases hs : lowerStr (resolveVars args tok) = str "scratch"
      · rw [if_pos hs]
      · rw [if_neg hs]
        rcases hdrop with h | h | h
        · exact absurd h hd
        · exact absurd h hs
        · rw [if_pos h]
  · intro lines img h heq
    obtain ⟨s, ln, hpi⟩ := dockerLoop_emitted p lines 0 [] [] img h
    rcases parseImageString_sep hpi with hc | hc
    · have h2 := containsChar_lowerStr_of (by decide) hc
      rw [heq] at h2
      exact absurd h2 (by decide)
    · have h2 := containsChar_lowerStr_of (by decide) hc
      rw [heq] at h2
      exact absurd h2 (by decide)
  · intro lines img h r tok a hparse heq
    obtain ⟨s, ln, hpi⟩ := dockerLoop_emitted p lines 0 [] [] img h
    have hword := parseFromLine_alias_word hparse
    rcases parseImageString_sep hpi with hc | hc
    · have h2 := containsChar_lowerStr_of (by decide) hc
      rw [heq, lowerStr_word_no_char hword
        (fun c hcw => (toLower_word_not_sep hcw).1)] at h2
      exact Bool.noConfusion h2
    · have h2 := containsChar_lowerStr_of (by decide) hc
      rw [heq, lowerStr_word_no_char hword
        (fun c hcw => (toLower_word_not_sep hcw).2)] at h2
      exact Bool.noConfusion h2

/-- Witness for C8 at concrete inputs. -/
theorem C8_witness :
    resolveVars [(str "V", str "1.25")] (varWithDefault (str "V") (str "9"))
      = str "1.25" :=
  (C8_dockerfile (str "D")).2.1 [(str "V", str "1.25")] (str "V") (str "9")
    (str "1.25") (by decide) (by decide) (by decide) (by decide) (by decide)

/-- Claim C7 counterexample to the claim as stated: on
`"minio/minio:1:2"` the code splits at the *first* colon of the
remainder (tag `"1:2"`), while the claim's "last/only `:`" rule yields
tag `"2"`. -/
theorem C7_counterexample :
    parseImageString (str "minio/minio:1:2") (str "f") 7 ≠
      specParseImageLast (str "minio/minio:1:2") (str "f") 7 ∧
    (parseImageString (str "minio/minio:1:2") (str "f") 7).map ImageInfo.tag
      = some (str "1:2") ∧
    (specParseImageLast (str "minio/minio:1:2") (str "f") 7).map ImageInfo.tag
      = some (str "2") := by
  exact ⟨by decide, by decide, by decide⟩

/-- Claim C7 (amended).  `parseImageString` agrees everywhere with the
claim's declarative description once the repository/tag split is taken
at the *first* `:` of the remainder; in particular
`"quay.io/minio/minio:latest"` parses to registry `quay.io`, repository
`minio/minio`, tag `latest`; `"thinkportgmbh/workshops:jupyter"` is
marked skipped; and `"nginx"` yields no reference. -/
theorem C7_parse (s0 path : Str) (line : Nat) :
    parseImageString s0 path line = specParseImageFirst s0 path line ∧
    (parseImageString (str "quay.io/minio/minio:latest") path line).map
        (fun r => (r.registry, r.repository, r.tag)) =
      some (str "quay.io", str "minio/minio", str "latest") ∧
    (parseImageString (str "thinkportgmbh/workshops:jupyter") path line).map
        ImageInfo.skipped = some true ∧
    parseImageString (str "nginx") path line = none := by
  refine ⟨?_, rfl, rfl, rfl⟩
  have hreg : ∀ t : Str, imgRegistrySplit t = specRegistrySplit t := by
    intro t
    unfold imgRegistrySplit specRegistrySplit
    by_cases hsl : containsChar '/' t = true
    · rw [splitFirst_eq_some hsl, hsl]
      simp only [Bool.true_and]
    · have hsl' : containsChar '/' t = false := by simpa using hsl
      rw [splitFirst_eq_none.mpr hsl', hsl']
      simp
  have htag : ∀ rest : Str, imgTagSplit rest =
      (if containsChar ':' rest then
        (rest.takeWhile (· ≠ ':'), (rest.dropWhile (· ≠ ':')).tail)
      else (rest, str "latest")) := by
    intro rest
    unfold imgTagSplit
    by_cases hc : containsChar ':' rest = true
    · rw [splitFirst_eq_some hc, if_pos hc]
    · have hc' : containsChar ':' rest = false := by simpa using hc
      rw [splitFirst_eq_none.mpr hc', if_neg hc]
  unfold parseImageString specParseImageFirst
  set s := goTrimSpace s0 with hs
  by_cases h1 : s = [] ∨ s = str "latest"
  · have hnacc : ¬ specAccepts s := by
      intro hacc
      rcases h1 with h | h
      · exact hacc.1 h
      · exact hacc.2.1 h
    rw [if_pos h1, if_neg hnacc]
  · rw [if_neg h1]
    by_cases h2 : s.head? = some '/' ∨ s.head? = some '.'
    · have hnacc : ¬ specAccepts s := by
        intro hacc
        rcases h2 with h | h
        · exact hacc.2.2.1 h
        · exact hacc.2.2.2.1 h
      rw [if_pos h2, if_neg hnacc]
    · rw [if_neg h2]
      by_cases h3 : ¬ containsChar '/' s ∧ ¬ containsChar ':' s
      · have hnacc : ¬ specAccepts s := by
          intro hacc
          rcases hacc.2.2.2.2 with h | h
          · exact h3.1 h
          · exact h3.2 h
        rw [if_pos h3, if_neg hnacc]
      · have hacc : specAccepts s := by
          refine ⟨fun h => h1 (Or.inl h), fun h => h1 (Or.inr h),
            fun h => h2 (Or.inl h), fun h => h2 (Or.inr h), ?_⟩
          rcases not_and_or.mp h3 with h | h
          · exact Or.inl (of_not_not h)
          · exact Or.inr (of_not_not h)
        rw [if_neg h3, if_pos hacc]
        simp only [hreg, htag]
example : findLatestTag [str "v1.0.0", str "v1.1.0", str "v2.0.0", str "1.5.0"] (str "v1.0.0")
    = str "v2.0.0" := by decide
example : findLatestTag [str "410", str "411", str "450", str "479"] (str "410")
    = str "479" := by decide
example : findLatestTag [] (str "1.0.0") = str "" := by decide
example : findLatestTag [str "latest", str "v1.0.0", str "v2.0.0", str "stable"] (str "latest")
    = str "v2.0.0" := by decide
example : findLatestTag [str "1.0.0", str "1.1.0", str "1.2.0-rc1", str "1.2.0-alpha", str "1.1.5"]
    (str "1.0.0") = str "1.2.0-rc1" := by decide

/-! ## The result cache (`internal/cache`)

`time.Time` instants are `Nat`; `time.Duration` is a `Nat`;
`time.Since(e.CheckedAt) > ttl` is computed in `Int` as
`(now : Int) - checkedAt > ttl` (for the claims' non-negative durations
the two agree).  The two Go maps are association lists with the newest
binding first, matching map-overwrite semantics.  The cache file is
modelled as `Option CacheData` (`none` = file absent); JSON
serialisation round-trips `CacheData` and is modelled as the identity. -/

/-- `cache.CacheEntry` (`AllTags` is `[]` where Go stores `nil`). -/
structure CacheEntry where
  latest : Str
  checkedAt : Nat
  allTags : List Str
deriving DecidableEq, Repr

/-- `cache.CacheData`. -/
structure CacheData where
  images : List (Str × CacheEntry)
  charts : List (Str × CacheEntry)
deriving DecidableEq, Repr

/-- `cache.Cache`. -/
structure Cache where
  filename : Str
  ttl : Nat
  skipReads : Bool
  data : CacheData
deriving DecidableEq, Repr

/-- `cache.New`. -/
def cacheNew (filename : Str) (ttl : Nat) (skipReads : Bool) : Cache :=
  ⟨filename, ttl, skipReads, ⟨[], []⟩⟩

/-- `Cache.Load`: a missing file leaves the empty in-memory state; an
existing file replaces the in-memory state with its contents. -/
def cacheLoad (c : Cache) (disk : Option CacheData) : Cache :=
  match disk with
  | none => c
  | some d => { c with data := d }

/-- `Cache.Save`: unconditionally serialises the full in-memory state,
overwriting whatever the file held — the source has no disabled-mode
check of any kind (`skipReads` is consulted only by the getters). -/
def cacheSave (c : Cache) (_disk : Option CacheData) : Option CacheData :=
  some c.data

/-- `Cache.GetImage` at instant `now`. -/
def cacheGetImage (c : Cache) (now : Nat) (key : Str) :
    Option (Str × List Str) :=
  if c.skipReads then none
  else
    match c.data.images.lookup key with
    | none => none
    | some e =>
      if (now : Int) - e.checkedAt > c.ttl then none
      else some (e.latest, e.allTags)

/-- `Cache.SetImage` at instant `now`. -/
def cacheSetImage (c : Cache) (now : Nat) (key latest : Str)
    (allTags : List Str) : Cache :=
  { c with data := { c.data with images := (key, ⟨latest, now, allTags⟩) :: c.data.images } }

/-- `Cache.GetChart` at instant `now`. -/
def cacheGetChart (c : Cache) (now : Nat) (key : Str) : Option Str :=
  if c.skipReads then none
  else
    match c.data.charts.lookup key with
    | none => none
    | some e =>
      if (now : Int) - e.checkedAt > c.ttl then none
      else some e.latest

/-- `Cache.SetChart` at instant `now`. -/
def cacheSetChart (c : Cache) (now : Nat) (key latest : Str) : Cache :=
  { c with data := { c.data with charts := (key, ⟨latest, now, []⟩) :: c.data.charts } }

/-- Claim C2: the claim says `Save` is a no-op in the all-writes-disabled
mode, and the repository's own `TestCache_Disabled` expects exactly
that (`Save` on a cache constructed with the flag set must leave the
file non-existent); but `Cache.Save` writes unconditionally — at the
test's own input the file is created with the full in-memory state. -/
theorem C2_save_writes_when_disabled :
    cacheSave (cacheSetImage (cacheNew (str "test-cache.json") 3600 true) 0
        (str "docker.io/nginx") (str "1.21.0") []) none ≠ none ∧
    cacheSave (cacheSetImage (cacheNew (str "test-cache.json") 3600 true) 0
        (str "docker.io/nginx") (str "1.21.0") []) none =
      some ⟨[(str "docker.io/nginx", ⟨str "1.21.0", 0, []⟩)], []⟩ := by
  exact ⟨by decide, by decide⟩

/-- The round-trip scenario of claim C9: `Set` both namespaces at
instant `t0`, `Save`, then `Load` on a fresh instance over the same
file. -/
def roundTrip (fn : Str) (ttl t0 : Nat) (key v : Str) (tagsv : List Str)
    (ckey cv : Str) (disk0 : Option CacheData) : Cache :=
  cacheLoad (cacheNew fn ttl false)
    (cacheSave (cacheSetChart (cacheSetImage (cacheNew fn ttl false) t0 key v tagsv)
      t0 ckey cv) disk0)

/-- Claim C9.  With a positive TTL and reads enabled: `Set`, `Save`,
fresh-instance `Load`, `Get` returns exactly the value that was set
while less than the TTL has elapsed; once the age exceeds the TTL the
same `Get` reports not-found, although the entry is still present in
the saved file. -/
theorem C9_cache_roundtrip (fn key v ckey cv : Str) (tagsv : List Str)
    (ttl t0 t1 t2 : Nat) (disk0 : Option CacheData)
    (hfresh : (t1 : Int) - t0 < ttl) (hexp : (t2 : Int) - t0 > ttl) :
    cacheGetImage (roundTrip fn ttl t0 key v tagsv ckey cv disk0) t1 key
      = some (v, tagsv) ∧
    cacheGetChart (roundTrip fn ttl t0 key v tagsv ckey cv disk0) t1 ckey
      = some cv ∧
    cacheGetImage (roundTrip fn ttl t0 key v tagsv ckey cv disk0) t2 key = none ∧
    cacheGetChart (roundTrip fn ttl t0 key v tagsv ckey cv disk0) t2 ckey = none ∧
    (roundTrip fn ttl t0 key v tagsv ckey cv disk0).data.images.lookup key
      = some ⟨v, t0, tagsv⟩ ∧
    (roundTrip fn ttl t0 key v tagsv ckey cv disk0).data.charts.lookup ckey
      = some ⟨cv, t0, []⟩ := by
  have h1 : ¬ ((t1 : Int) - (t0 : Nat) > (ttl : Nat)) := by omega
  have h2 : ((t2 : Int) - (t0 : Nat) > (ttl : Nat)) := by omega
  refine ⟨?_, ?_, ?_, ?_, ?_, ?_⟩ <;>
    simp [roundTrip, cacheNew, cacheLoad, cacheSave, cacheSetImage, cacheSetChart,
      cacheGetImage, cacheGetChart, List.lookup, h1, h2]

/-- Witness for C9 at concrete instants. -/
theorem C9_witness :
    cacheGetImage
        (roundTrip (str "c") 10 0 (str "k") (str "v") [str "a"] (str "ck") (str "cv") none)
        5 (str "k") = some (str "v", [str "a"]) :=
  (C9_cache_roundtrip (str "c") (str "k") (str "v") (str "ck") (str "cv") [str "a"]
    10 0 5 99 none (by decide) (by decide)).1

/-! ## The check orchestrator (`internal/checker`)

The upstream Resolver (`registry.GetLatestTag` / `GetChartVersion`) is
the modelling boundary: its outcomes are an oracle `res : Nat → Except
RegErr LookupOk`, indexed by the number of Resolver invocations made so
far in the run (every invocation — image or chart, successful or not —
consumes one index).  `RegErr.rateLimit` is the distinguished
`registry.ErrRateLimit`; `RegErr.other msg` is any other error with its
`Error()` text.  `time.Now` during one run is a single instant `now`. -/

/-- `scanner.ChartInfo`. -/
structure ChartInfo where
  name : Str
  version : Str
  appVersion : Str
  path : Str
  line : Nat
  upstream : Str
deriving DecidableEq, Repr

/-- `checker.Status`. -/
inductive Status where
  | unknown
  | upToDate
  | updateAvailable
  | skipped
  | error
deriving DecidableEq, Repr

/-- `checker.ImageResult`. -/
structure ImageResult where
  repository : Str
  registry : Str
  current : Str
  latest : Str
  status : Status
  skipped : Bool
  error : Str
  path : Str
  line : Nat
deriving DecidableEq, Repr

/-- `checker.ChartResult`. -/
structure ChartResult where
  name : Str
  current : Str
  latest : Str
  upstream : Str
  status : Status
  error : Str
  path : Str
  line : Nat
deriving DecidableEq, Repr

/-- `checker.Results`. -/
structure Results where
  images : List ImageResult
  charts : List ChartResult
deriving DecidableEq, Repr

/-- A successful Resolver outcome (`TagInfo.Latest`/`AllTags`; for a
chart lookup only `latest` is meaningful). -/
structure LookupOk where
  latest : Str
  allTags : List Str
deriving DecidableEq, Repr

/-- A failed Resolver outcome: the distinguished rate-limit error, or
any other error carrying its message. -/
inductive RegErr where
  | rateLimit
  | other (msg : Str)
deriving DecidableEq, Repr

/-- `err.Error()`: `registry.ErrRateLimit` prints
`"rate limit exceeded"`. -/
def errMsg : RegErr → Str
  | .rateLimit => str "rate limit exceeded"
  | .other m => m

/-- The orchestrator's mutable state: the cache plus the count of
Resolver invocations made so far (the oracle index). -/
structure CheckSt where
  cache : Cache
  calls : Nat
deriving DecidableEq, Repr

/-- `checker.determineStatus`. -/
def determineStatus (current latest : Str) : Status :=
  if current = latest then .upToDate
  else if latest = [] then .unknown
  else .updateAvailable

/-- `fmt.Sprintf("%s/%s", img.Registry, img.Repository)`. -/
def imgCacheKey (img : ImageInfo) : Str :=
  img.registry ++ str "/" ++ img.repository

/-- `fmt.Sprintf("%s/%s", chart.Upstream, chart.Name)`. -/
def chartCacheKey (chart : ChartInfo) : Str :=
  chart.upstream ++ str "/" ++ chart.name

/-- `checker.checkImage`. -/
def checkImage (res : Nat → Except RegErr LookupOk) (now : Nat)
    (st : CheckSt) (img : ImageInfo) : ImageResult × CheckSt :=
  let base : ImageResult :=
    ⟨img.repository, img.registry, img.tag, [], .unknown, false, [], img.path, img.line⟩
  if img.skipped then ({ base with status := .skipped, skipped := true }, st)
  else
    match cacheGetImage st.cache now (imgCacheKey img) with
    | some (latest, _) =>
      ({ base with latest := latest, status := determineStatus img.tag latest }, st)
    | none =>
      match res st.calls with
      | .error e =>
        ({ base with status := .error, error := errMsg e },
         { st with calls := st.calls + 1 })
      | .ok info =>
        ({ base with latest := info.latest, status := determineStatus img.tag info.latest },
         ⟨cacheSetImage st.cache now (imgCacheKey img) info.latest info.allTags,
          st.calls + 1⟩)

/-- `checker.checkChart`. -/
def checkChart (res : Nat → Except RegErr LookupOk) (now : Nat)
    (st : CheckSt) (chart : ChartInfo) : ChartResult × CheckSt :=
  let base : ChartResult :=
    ⟨chart.name, chart.version, [], chart.upstream, .unknown, [], chart.path, chart.line⟩
  if chart.upstream = [] then ({ base with status := .skipped }, st)
  else
    match cacheGetChart st.cache now (chartCacheKey chart) with
    | some latest =>
      ({ base with latest := latest, status := determineStatus chart.version latest }, st)
    | none =>
      match res st.calls with
      | .error e =>
        ({ base with status := .error, error := errMsg e },
         { st with calls := st.calls + 1 })
      | .ok info =>
        ({ base with latest := info.latest, status := determineStatus chart.version info.latest },
         ⟨cacheSetChart st.cache now (chartCacheKey chart) info.latest,
          st.calls + 1⟩)

/-- The result `CheckAll` emits for an image once the halt flag is set. -/
def rateLimitImageResult (img : ImageInfo) : ImageResult :=
  ⟨img.repository, img.registry, img.tag, [], .error, false,
    str "rate limit hit", img.path, img.line⟩

/-- The result `CheckAll` emits for a chart once the halt flag is set. -/
def rateLimitChartResult (chart : ChartInfo) : ChartResult :=
  ⟨chart.name, chart.version, [], chart.upstream, .error,
    str "rate limit hit", chart.path, chart.line⟩

/-- One of `CheckAll`'s two loops, generically: before the halt flag is
set each reference is processed by `step` and the flag is set exactly
when the emitted result's error text is `"rate limit exceeded"` (the
source's string comparison); once set, every remaining reference is
emitted as the constant rate-limit-hit result with no state access. -/
def runRefs {α β : Type} (step : CheckSt → α → β × CheckSt) (rl : α → β)
    (errOf : β → Str) : CheckSt → Bool → List α → List β × CheckSt × Bool
  | st, halted, [] => ([], st, halted)
  | st, true, a :: rest =>
    let p := runRefs step rl errOf st true rest
    (rl a :: p.1, p.2)
  | st, false, a :: rest =>
    let q := step st a
    let halted1 : Bool := decide (errOf q.1 = str "rate limit exceeded")
    let p := runRefs step rl errOf q.2 halted1 rest
    (q.1 :: p.1, p.2)

/-- The image loop of `CheckAll`. -/
def runImages (res : Nat → Except RegErr LookupOk) (now : Nat)
    (st : CheckSt) (halted : Bool) (images : List ImageInfo) :
    List ImageResult × CheckSt × Bool :=
  runRefs (checkImage res now) rateLimitImageResult (fun r => r.error) st halted images

/-- The chart loop of `CheckAll`. -/
def runCharts (res : Nat → Except RegErr LookupOk) (now : Nat)
    (st : CheckSt) (halted : Bool) (charts : List ChartInfo) :
    List ChartResult × CheckSt × Bool :=
  runRefs (checkChart res now) rateLimitChartResult (fun r => r.error) st halted charts

/-- `checker.CheckAll`: images then charts, sharing one halt flag; the
final `Bool` is `true` exactly when Go returns `registry.ErrRateLimit`
as the batch's overall error. -/
def checkAll (res : Nat → Except RegErr LookupOk) (now : Nat) (cache0 : Cache)
    (images : List ImageInfo) (charts : List ChartInfo) :
    Results × CheckSt × Bool :=
  let pi := runImages res now ⟨cache0, 0⟩ false images
  let pc := runCharts res now pi.2.1 pi.2.2 charts
  (⟨pi.1, pc.1⟩, pc.2)

/-- The per-reference error texts of a batch, images then charts in
input order. -/
def resultErrs (r : Results) : List Str :=
  r.images.map (fun x => x.error) ++ r.charts.map (fun x => x.error)

/-- The per-reference statuses of a batch, images then charts in input
order. -/
def resultStatuses (r : Results) : List Status :=
  r.images.map (fun x => x.status) ++ r.charts.map (fun x => x.status)

/-- Claim C10.  The cache is written only by a successful upstream call:
for each processed reference, either the cache is left exactly as it
was (skipped reference, cache hit, or any resolver failure including
rate limit), or the resolver call at the current oracle index succeeded
and the sole change is the corresponding cache write. -/
theorem C10_cache_write_only_on_success
    (res : Nat → Except RegErr LookupOk) (now : Nat) (st : CheckSt)
    (img : ImageInfo) (chart : ChartInfo) :
    ((checkImage res now st img).2.cache = st.cache ∨
      ∃ v, res st.calls = .ok v ∧ img.skipped = false ∧
        cacheGetImage st.cache now (imgCacheKey img) = none ∧
        (checkImage res now st img).2.cache =
          cacheSetImage st.cache now (imgCacheKey img) v.latest v.allTags ∧
        (checkImage res now st img).1.error = []) ∧
    ((checkChart res now st chart).2.cache = st.cache ∨
      ∃ v, res st.calls = .ok v ∧ chart.upstream ≠ [] ∧
        cacheGetChart st.cache now (chartCacheKey chart) = none ∧
        (checkChart res now st chart).2.cache =
          cacheSetChart st.cache now (chartCacheKey chart) v.latest ∧
        (checkChart res now st chart).1.error = []) := by
  constructor
  · simp only [checkImage]
    split
    · left; rfl
    · rename_i hskip
      split
      · left; rfl
      · rename_i hmiss
        split
        · left; rfl
        · rename_i info hok
          right
          exact ⟨info, hok, by simpa using hskip, hmiss, rfl, rfl⟩
  · simp only [checkChart]
    split
    · left; rfl
    · rename_i hup
      split
      · left; rfl
      · rename_i hmiss
        split
        · left; rfl
        · rename_i info hok
          right
          exact ⟨info, hok, hup, hmiss, rfl, rfl⟩

lemma runRefs_nil_eq {α β : Type} (step : CheckSt → α → β × CheckSt) (rl : α → β)
    (errOf : β → Str) (st : CheckSt) (h : Bool) :
    runRefs step rl errOf st h [] = ([], st, h) := by
  cases h <;> rfl

lemma runRefs_cons_true {α β : Type} (step : CheckSt → α → β × CheckSt) (rl : α → β)
    (errOf : β → Str) (st : CheckSt) (a : α) (l : List α) :
    runRefs step rl errOf st true (a :: l) =
      (rl a :: (runRefs step rl errOf st true l).1,
        (runRefs step rl errOf st true l).2) := rfl

lemma runRefs_cons_false {α β : Type} (step : CheckSt → α → β × CheckSt) (rl : α → β)
    (errOf : β → Str) (st : CheckSt) (a : α) (l : List α) :
    runRefs step rl errOf st false (a :: l) =
      ((step st a).1 :: (runRefs step rl errOf (step st a).2
          (decide (errOf (step st a).1 = str "rate limit exceeded")) l).1,
        (runRefs step rl errOf (step st a).2
          (decide (errOf (step st a).1 = str "rate limit exceeded")) l).2) := rfl

/-- Once the halt flag is set, the loop maps every remaining reference
to its constant rate-limit result and never touches the state. -/
lemma runRefs_halted {α β : Type} (step : CheckSt → α → β × CheckSt) (rl : α → β)
    (errOf : β → Str) :
    ∀ (l : List α) (st : CheckSt),
      runRefs step rl errOf st true l = (l.map rl, st, true) := by
  intro l
  induction l with
  | nil => intro st; rfl
  | cons a rest ih => intro st; rw [runRefs_cons_true, ih]; rfl

lemma runRefs_length {α β : Type} (step : CheckSt → α → β × CheckSt) (rl : α → β)
    (errOf : β → Str) :
    ∀ (l : List α) (st : CheckSt) (h : Bool),
      ((runRefs step rl errOf st h l).1).length = l.length := by
  intro l
  induction l with
  | nil => intro st h; rw [runRefs_nil_eq]; rfl
  | cons a rest ih =>
    intro st h
    cases h
    · rw [runRefs_cons_false]; simp [ih]
    · rw [runRefs_cons_true]; simp [ih]

/-- Every emitted result is either a `step` output or a constant
rate-limit result. -/
lemma runRefs_mem {α β : Type} (step : CheckSt → α → β × CheckSt) (rl : α → β)
    (errOf : β → Str) :
    ∀ (l : List α) (st : CheckSt) (h : Bool) (b : β),
      b ∈ (runRefs step rl errOf st h l).1 →
      (∃ st' a, b = (step st' a).1) ∨ (∃ a, b = rl a) := by
  intro l
  induction l with
  | nil => intro st h b hb; rw [runRefs_nil_eq] at hb; simp at hb
  | cons a rest ih =>
    intro st h b hb
    cases h
    · rw [runRefs_cons_false] at hb
      rcases List.mem_cons.mp hb with hb' | hb'
      · exact Or.inl ⟨st, a, hb'⟩
      · exact ih _ _ b hb'
    · rw [runRefs_cons_true] at hb
      rcases List.mem_cons.mp hb with hb' | hb'
      · exact Or.inr ⟨a, hb'⟩
      · exact ih _ _ b hb'

lemma map_rl_errs {α β : Type} (rl : α → β) (errOf : β → Str)
    (Hrl : ∀ a, errOf (rl a) = str "rate limit hit") :
    ∀ (rest : List α) (j : Nat), j < rest.length →
      ((rest.map rl).map errOf).get? j = some (str "rate limit hit") := by
  intro rest j hj
  rw [List.map_map, List.get?_map, List.get?_eq_get hj]
  simp [Hrl]

/-- If the loop starts un-halted and ends un-halted, no emitted result
carries the halt message. -/
lemma runRefs_nohalt {α β : Type} (step : CheckSt → α → β × CheckSt) (rl : α → β)
    (errOf : β → Str)
    (Hstep : ∀ (st : CheckSt) (a : α), errOf (step st a).1 ≠ str "rate limit hit") :
    ∀ (l : List α) (st : CheckSt),
      (runRefs step rl errOf st false l).2.2 = false →
      ∀ j, (((runRefs step rl errOf st false l).1).map errOf).get? j ≠
        some (str "rate limit hit") := by
  intro l
  induction l with
  | nil => intro st _ j; rw [runRefs_nil_eq]; simp
  | cons a rest ih =>
    intro st hfl j
    rw [runRefs_cons_false] at hfl ⊢
    by_cases hE : errOf (step st a).1 = str "rate limit exceeded"
    · exfalso
      rw [decide_eq_true hE, runRefs_halted] at hfl
      exact Bool.noConfusion hfl
    · rw [decide_eq_false hE] at hfl ⊢
      cases j with
      | zero =>
        simp only [List.map_cons, List.get?_cons_zero]
        intro hcon
        exact Hstep st a (Option.some.inj hcon)
      | succ j' =>
        simp only [List.map_cons, List.get?_cons_succ]
        exact ih _ hfl j'

/-- The halt behaviour of one loop started un-halted: the final flag is
set iff some result carries the distinguished message; and at the first
(unique) such position `i`, results before `i` carry neither rate-limit
message, all results after `i` carry the halt message, and truncating
the reference list just after position `i` reproduces the final state
(no state access happens after the halt). -/
lemma runRefs_spec {α β : Type} (step : CheckSt → α → β × CheckSt) (rl : α → β)
    (errOf : β → Str)
    (Hstep : ∀ (st : CheckSt) (a : α), errOf (step st a).1 ≠ str "rate limit hit")
    (Hrl : ∀ a, errOf (rl a) = str "rate limit hit") :
    ∀ (l : List α) (st : CheckSt),
      ((runRefs step rl errOf st false l).2.2 = true ↔
        str "rate limit exceeded" ∈ ((runRefs step rl errOf st false l).1).map errOf) ∧
      ∀ i, (((runRefs step rl errOf st false l).1).map errOf).get? i =
          some (str "rate limit exceeded") →
        (∀ j, j < i →
          (((runRefs step rl errOf st false l).1).map errOf).get? j ≠
              some (str "rate limit hit") ∧
            (((runRefs step rl errOf st false l).1).map errOf).get? j ≠
              some (str "rate limit exceeded")) ∧
        (∀ j, i < j → j < l.length →
          (((runRefs step rl errOf st false l).1).map errOf).get? j =
            some (str "rate limit hit")) ∧
        (runRefs step rl errOf st false (l.take (i + 1))).2 =
          ((runRefs step rl errOf st false l).2.1, true) := by
  intro l
  induction l with
  | nil =>
    intro st
    rw [runRefs_nil_eq]
    constructor
    · simp
    · intro i hi
      simp at hi
  | cons a rest ih =>
    intro st
    by_cases hE : errOf (step st a).1 = str "rate limit exceeded"
    · -- the head result sets the halt flag
      have hrw : runRefs step rl errOf st false (a :: rest) =
          ((step st a).1 :: rest.map rl, (step st a).2, true) := by
        rw [runRefs_cons_false, decide_eq_true hE, runRefs_halted]
      rw [hrw]
      constructor
      · simp [hE]
      · intro i hi
        cases i with
        | zero =>
          refine ⟨fun j hj => absurd hj (Nat.not_lt_zero j), ?_, ?_⟩
          · intro j hj hjlen
            cases j with
            | zero => exact absurd hj (Nat.lt_irrefl 0)
            | succ j' =>
              simp only [List.map_cons, List.get?_cons_succ]
              exact map_rl_errs rl errOf Hrl rest j'
                (by simpa using Nat.lt_of_succ_lt_succ hjlen)
          · rw [List.take_succ_cons, List.take_zero, runRefs_cons_false,
              decide_eq_true hE, runRefs_nil_eq]
        | succ i' =>
          exfalso
          simp only [List.map_cons, List.get?_cons_succ] at hi
          have hlen : i' < rest.length := by
            have := List.get?_eq_some.mp hi
            simpa using this.1
          have := map_rl_errs rl errOf Hrl rest i' hlen
          rw [hi] at this
          have h2 := Option.some.inj this
          exact absurd h2 (by decide)
    · -- the head result does not halt
      have hrw : runRefs step rl errOf st false (a :: rest) =
          ((step st a).1 :: (runRefs step rl errOf (step st a).2 false rest).1,
            (runRefs step rl errOf (step st a).2 false rest).2) := by
        rw [runRefs_cons_false, decide_eq_false hE]
      obtain ⟨ihiff, ihidx⟩ := ih (step st a).2
      rw [hrw]
      constructor
      · constructor
        · intro h
          exact List.mem_cons.mpr (Or.inr (ihiff.mp h))
        · intro h
          rw [List.map_cons] at h
          rcases List.mem_cons.mp h with h' | h'
          · exact absurd h'.symm hE
          · exact ihiff.mpr h'
      · intro i hi
        cases i with
        | zero =>
          exfalso
          simp only [List.map_cons, List.get?_cons_zero] at hi
          exact hE (Option.some.inj hi)
        | succ i' =>
          simp only [List.map_cons, List.get?_cons_succ] at hi
          obtain ⟨hbef, haft, htr⟩ := ihidx i' hi
          refine ⟨?_, ?_, ?_⟩
          · intro j hj
            cases j with
            | zero =>
              simp only [List.map_cons, List.get?_cons_zero]
              exact ⟨fun hc => Hstep st a (Option.some.inj hc),
                fun hc => hE (Option.some.inj hc)⟩
            | succ j' =>
              simp only [List.map_cons, List.get?_cons_succ]
              exact hbef j' (Nat.lt_of_succ_lt_succ hj)
          · intro j hj hjlen
            cases j with
            | zero => exact absurd hj (Nat.not_lt_zero _)
            | succ j' =>
              simp only [List.map_cons, List.get?_cons_succ]
              exact haft j' (Nat.lt_of_succ_lt_succ hj)
                (by simpa using Nat.lt_of_succ_lt_succ hjlen)
          · rw [List.take_succ_cons, runRefs_cons_false, decide_eq_false hE]
            exact htr

/-- With an honest oracle (no non-rate-limit error whose message is the
halt text), `checkImage` never emits the halt message itself. -/
lemma checkImage_no_rlh (res : Nat → Except RegErr LookupOk) (now : Nat)
    (hres : ∀ n, res n ≠ .error (.other (str "rate limit hit"))) :
    ∀ (st : CheckSt) (img : ImageInfo),
      (fun r => ImageResult.error r) (checkImage res now st img).1 ≠
        str "rate limit hit" := by
  intro st img
  simp only [checkImage]
  split
  · simp [str]
  · split
    · simp [str]
    · split
      · rename_i e heq
        cases e with
        | rateLimit => simp [errMsg, str]
        | other m =>
          intro hc
          simp only [errMsg] at hc
          exact hres st.calls (by rw [heq, hc])
      · simp [str]

/-- Same property for `checkChart`. -/
lemma checkChart_no_rlh (res : Nat → Except RegErr LookupOk) (now : Nat)
    (hres : ∀ n, res n ≠ .error (.other (str "rate limit hit"))) :
    ∀ (st : CheckSt) (chart : ChartInfo),
      (fun r => ChartResult.error r) (checkChart res now st chart).1 ≠
        str "rate limit hit" := by
  intro st chart
  simp only [checkChart]
  split
  · simp [str]
  · split
    · simp [str]
    · split
      · rename_i e heq
        cases e with
        | rateLimit => simp [errMsg, str]
        | other m =>
          intro hc
          simp only [errMsg] at hc
          exact hres st.calls (by rw [heq, hc])
      · simp [str]

/-- A non-empty error message on an image result implies status Error. -/
lemma checkImage_status_error (res : Nat → Except RegErr LookupOk) (now : Nat)
    (st : CheckSt) (img : ImageInfo)
    (h : (checkImage res now st img).1.error ≠ []) :
    (checkImage res now st img).1.status = Status.error := by
  simp only [checkImage]
  split
  · rename_i hsk
    simp [checkImage, hsk] at h
  · rename_i hsk
    split
    · rename_i v hcache
      simp [checkImage, hsk, hcache] at h
    · rename_i hcache
      split
      · rfl
      · rename_i info hok
        simp [checkImage, hsk, hcache, hok] at h

/-- A non-empty error message on a chart result implies status Error. -/
lemma checkChart_status_error (res : Nat → Except RegErr LookupOk) (now : Nat)
    (st : CheckSt) (chart : ChartInfo)
    (h : (checkChart res now st chart).1.error ≠ []) :
    (checkChart res now st chart).1.status = Status.error := by
  simp only [checkChart]
  split
  · rename_i hup
    simp [checkChart, hup] at h
  · rename_i hup
    split
    · rename_i v hcache
      simp [checkChart, hup, hcache] at h
    · rename_i hcache
      split
      · rfl
      · rename_i info hok
        simp [checkChart, hup, hcache, hok] at h

/-- Transfer a per-element error/status implication to positions of the
mapped lists. -/
lemma errs_status {β : Type} (out : List β) (errOf : β → Str) (statOf : β → Status)
    (H : ∀ b ∈ out,
      (errOf b = str "rate limit exceeded" ∨ errOf b = str "rate limit hit") →
      statOf b = Status.error) :
    ∀ j, ((out.map errOf).get? j = some (str "rate limit exceeded") ∨
        (out.map errOf).get? j = some (str "rate limit hit")) →
      (out.map statOf).get? j = some Status.error := by
  intro j hj
  rcases hb : out.get? j with _ | b
  · rcases hj with hj | hj <;>
      (rw [List.get?_map, hb] at hj; exact Option.noConfusion hj)
  · have hmem := List.get?_mem hb
    rw [List.get?_map, hb, Option.map_some']
    rcases hj with hj | hj <;> rw [List.get?_map, hb, Option.map_some'] at hj
    · exact congrArg some (H b hmem (Or.inl (Option.some.inj hj)))
    · exact congrArg some (H b hmem (Or.inr (Option.some.inj hj)))

/-- Claim C1.  Orchestrator halt semantics, for any honest oracle (one
whose non-rate-limit errors never carry one of the two reserved
messages, as is true of every error `registry` can produce): the batch
returns the distinguished rate-limit signal iff some reference received
the distinguished error; any reference whose message is one of the two
rate-limit texts has status Error; and at the position of the
distinguished error, all earlier references (images then charts, in
input order) have real (non-halt) statuses, every later reference is
emitted as Error "rate limit hit", and the final cache and
resolver-call count equal those of the run truncated right after the
halting reference — no cache or resolver access happens after the
halt. -/
theorem C1_checkAll_halt (res : Nat → Except RegErr LookupOk) (now : Nat)
    (cache0 : Cache) (images : List ImageInfo) (charts : List ChartInfo)
    (hres : ∀ n, res n ≠ Except.error (RegErr.other (str "rate limit exceeded")) ∧
      res n ≠ Except.error (RegErr.other (str "rate limit hit"))) :
    ((checkAll res now cache0 images charts).2.2 = true ↔
      str "rate limit exceeded" ∈ resultErrs (checkAll res now cache0 images charts).1) ∧
    (∀ j, ((resultErrs (checkAll res now cache0 images charts).1).get? j =
          some (str "rate limit exceeded") ∨
        (resultErrs (checkAll res now cache0 images charts).1).get? j =
          some (str "rate limit hit")) →
      (resultStatuses (checkAll res now cache0 images charts).1).get? j =
        some Status.error) ∧
    (∀ i, (resultErrs (checkAll res now cache0 images charts).1).get? i =
        some (str "rate limit exceeded") →
      (∀ j, j < i →
        (resultErrs (checkAll res now cache0 images charts).1).get? j ≠
            some (str "rate limit hit") ∧
          (resultErrs (checkAll res now cache0 images charts).1).get? j ≠
            some (str "rate limit exceeded")) ∧
      (∀ j, i < j →
          j < (resultErrs (checkAll res now cache0 images charts).1).length →
        (resultErrs (checkAll res now cache0 images charts).1).get? j =
          some (str "rate limit hit")) ∧
      (checkAll res now cache0 images charts).2.1 =
        (checkAll res now cache0 (images.take (i + 1))
          (charts.take (i + 1 - images.length))).2.1) := by
  have SI := runRefs_spec (checkImage res now) rateLimitImageResult
    (fun r => r.error) (checkImage_no_rlh res now (fun n => (hres n).2))
    (fun a => rfl) images ⟨cache0, 0⟩
  simp only [checkAll, runImages, runCharts, resultErrs, resultStatuses]
  set pI := runRefs (checkImage res now) rateLimitImageResult (fun r => r.error)
    ⟨cache0, 0⟩ false images with hpI
  set pC := runRefs (checkChart res now) rateLimitChartResult (fun r => r.error)
    pI.2.1 pI.2.2 charts with hpC
  have hNI : (pI.1.map (fun r => ImageResult.error r)).length = images.length := by
    rw [List.length_map, hpI, runRefs_length]
  have hNC : (pC.1.map (fun r => ChartResult.error r)).length = charts.length := by
    rw [List.length_map, hpC, runRefs_length]
  refine ⟨?_, ?_, ?_⟩
  · -- (A) overall signal iff some reference received the distinguished error
    cases hfl : pI.2.2 with
    | true =>
      have hsplitC : pC = (charts.map rateLimitChartResult, pI.2.1, true) := by
        rw [hpC, hfl, runRefs_halted]
      rw [hsplitC]
      constructor
      · intro _
        exact List.mem_append.mpr (Or.inl (SI.1.mp hfl))
      · intro _
        rfl
    | false =>
      have hpC' : pC = runRefs (checkChart res now) rateLimitChartResult
          (fun r => r.error) pI.2.1 false charts := by
        rw [hpC, hfl]
      have SC := runRefs_spec (checkChart res now) rateLimitChartResult
        (fun r => r.error) (checkChart_no_rlh res now (fun n => (hres n).2))
        (fun a => rfl) charts pI.2.1
      rw [← hpC'] at SC
      constructor
      · intro h
        exact List.mem_append.mpr (Or.inr (SC.1.mp h))
      · intro h
        rcases List.mem_append.mp h with h' | h'
        · have := SI.1.mpr h'
          rw [hfl] at this
          exact Bool.noConfusion this
        · exact SC.1.mpr h'
  · -- (B) every rate-limit message implies status Error
    intro j hj
    have HI : ∀ b ∈ pI.1,
        ((fun r => ImageResult.error r) b = str "rate limit exceeded" ∨
          (fun r => ImageResult.error r) b = str "rate limit hit") →
        (fun r => ImageResult.status r) b = Status.error := by
      intro b hb hbe
      rw [hpI] at hb
      rcases runRefs_mem _ _ _ images ⟨cache0, 0⟩ false b hb with ⟨st', a, rfl⟩ | ⟨a, rfl⟩
      · rcases hbe with he | he
        · exact checkImage_status_error res now st' a
            (by rw [show (checkImage res now st' a).1.error =
              str "rate limit exceeded" from he]; decide)
        · exact checkImage_status_error res now st' a
            (by rw [show (checkImage res now st' a).1.error =
              str "rate limit hit" from he]; decide)
      · rfl
    have HC : ∀ b ∈ pC.1,
        ((fun r => ChartResult.error r) b = str "rate limit exceeded" ∨
          (fun r => ChartResult.error r) b = str "rate limit hit") →
        (fun r => ChartResult.status r) b = Status.error := by
      intro b hb hbe
      rw [hpC] at hb
      rcases runRefs_mem _ _ _ charts pI.2.1 pI.2.2 b hb with ⟨st', a, rfl⟩ | ⟨a, rfl⟩
      · rcases hbe with he | he
        · exact checkChart_status_error res now st' a
            (by rw [show (checkChart res now st' a).1.error =
              str "rate limit exceeded" from he]; decide)
        · exact checkChart_status_error res now st' a
            (by rw [show (checkChart res now st' a).1.error =
              str "rate limit hit" from he]; decide)
      · rfl
    have H1 := errs_status pI.1 (fun r => r.error) (fun r => r.status) HI
    have H2 := errs_status pC.1 (fun r => r.error) (fun r => r.status) HC
    by_cases hjl : j < (pI.1.map (fun r => ImageResult.error r)).length
    · have hjl' : j < (pI.1.map (fun r => ImageResult.status r)).length := by
        rw [List.length_map] at hjl ⊢
        exact hjl
      rw [List.get?_append hjl']
      rcases hj with hj | hj <;> rw [List.get?_append hjl] at hj
      · exact H1 j (Or.inl hj)
      · exact H1 j (Or.inr hj)
    · have hjge := Nat.le_of_not_lt hjl
      have hjge' : (pI.1.map (fun r => ImageResult.status r)).length ≤ j := by
        rw [List.length_map] at hjge ⊢
        exact hjge
      rw [List.get?_append_right hjge']
      rcases hj with hj | hj <;> rw [List.get?_append_right hjge] at hj
      · refine Eq.trans ?_ (H2 (j - pI.1.length) (Or.inl (by
          rw [List.length_map] at hj
          exact hj)))
        rw [List.length_map]
      · refine Eq.trans ?_ (H2 (j - pI.1.length) (Or.inr (by
          rw [List.length_map] at hj
          exact hj)))
        rw [List.length_map]
  · -- (C) positioning of the halt and absence of further state access
    intro i hi
    by_cases hil : i < (pI.1.map (fun r => ImageResult.error r)).length
    · -- the halting reference is an image
      have hiI : (pI.1.map (fun r => ImageResult.error r)).get? i =
          some (str "rate limit exceeded") := by
        rw [List.get?_append hil] at hi
        exact hi
      have hfl : pI.2.2 = true := SI.1.mpr (List.get?_mem hiI)
      have hsplitC : pC = (charts.map rateLimitChartResult, pI.2.1, true) := by
        rw [hpC, hfl, runRefs_halted]
      obtain ⟨hbef, haft, htr⟩ := SI.2 i hiI
      refine ⟨?_, ?_, ?_⟩
      · intro j hj
        have hjl : j < (pI.1.map (fun r => ImageResult.error r)).length :=
          Nat.lt_trans hj hil
        rw [List.get?_append hjl]
        exact hbef j hj
      · intro j hj hjlen
        by_cases hjl : j < (pI.1.map (fun r => ImageResult.error r)).length
        · rw [List.get?_append hjl]
          exact haft j hj (by rw [← hNI]; exact hjl)
        · rw [List.get?_append_right (Nat.le_of_not_lt hjl)]
          rw [List.length_append] at hjlen
          have hrange : j - (pI.1.map (fun r => ImageResult.error r)).length <
              charts.length := by
            omega
          have := map_rl_errs rateLimitChartResult (fun r => r.error)
            (fun a => rfl) charts
            (j - (pI.1.map (fun r => ImageResult.error r)).length) hrange
          rw [hsplitC]
          exact this
      · have hii : i < images.length := by rw [← hNI]; exact hil
        have htake0 : i + 1 - images.length = 0 := by omega
        rw [htake0, List.take_zero, runRefs_nil_eq, hsplitC]
        exact (congrArg Prod.fst htr).symm
    · -- the halting reference is a chart
      have hige := Nat.le_of_not_lt hil
      have hiC : (pC.1.map (fun r => ChartResult.error r)).get?
          (i - (pI.1.map (fun r => ImageResult.error r)).length) =
          some (str "rate limit exceeded") := by
        rw [List.get?_append_right hige] at hi
        exact hi
      cases hfl : pI.2.2 with
      | true =>
        exfalso
        have hsplitC : pC = (charts.map rateLimitChartResult, pI.2.1, true) := by
          rw [hpC, hfl, runRefs_halted]
        have hrange : i - (pI.1.map (fun r => ImageResult.error r)).length <
            charts.length := by
          obtain ⟨hr, _⟩ := List.get?_eq_some.mp hiC
          rw [hNC] at hr
          exact hr
        have hall := map_rl_errs rateLimitChartResult (fun r => r.error)
          (fun a => rfl) charts
          (i - (pI.1.map (fun r => ImageResult.error r)).length) hrange
        rw [hsplitC] at hiC
        rw [hall] at hiC
        exact absurd (Option.some.inj hiC) (by decide)
      | false =>
        have hpC' : pC = runRefs (checkChart res now) rateLimitChartResult
            (fun r => r.error) pI.2.1 false charts := by
          rw [hpC, hfl]
        have SC := runRefs_spec (checkChart res now) rateLimitChartResult
          (fun r => r.error) (checkChart_no_rlh res now (fun n => (hres n).2))
          (fun a => rfl) charts pI.2.1
        rw [← hpC'] at SC
        obtain ⟨hbefC, haftC, htrC⟩ :=
          SC.2 (i - (pI.1.map (fun r => ImageResult.error r)).length) hiC
        refine ⟨?_, ?_, ?_⟩
        · intro j hj
          by_cases hjl : j < (pI.1.map (fun r => ImageResult.error r)).length
          · rw [List.get?_append hjl]
            constructor
            · have hnh := runRefs_nohalt (checkImage res now) rateLimitImageResult
                (fun r => r.error) (checkImage_no_rlh res now (fun n => (hres n).2))
                images ⟨cache0, 0⟩
              rw [← hpI] at hnh
              exact hnh hfl j
            · intro hc
              have := SI.1.mpr (List.get?_mem hc)
              rw [hfl] at this
              exact Bool.noConfusion this
          · have hjge := Nat.le_of_not_lt hjl
            rw [List.get?_append_right hjge]
            exact hbefC (j - (pI.1.map (fun r => ImageResult.error r)).length)
              (by omega)
        · intro j hj hjlen
          have hjge : (pI.1.map (fun r => ImageResult.error r)).length ≤ j :=
            Nat.le_trans hige (Nat.le_of_lt hj)
          rw [List.get?_append_right hjge]
          rw [List.length_append, hNC] at hjlen
          exact haftC (j - (pI.1.map (fun r => ImageResult.error r)).length)
            (by omega) (by omega)
        · have htakeI : images.take (i + 1) = images := by
            apply List.take_of_length_le
            omega
          have htakeC : i + 1 - images.length =
              i - (pI.1.map (fun r => ImageResult.error r)).length + 1 := by
            omega
          rw [htakeI, htakeC, ← hpI, hfl]
          exact (congrArg Prod.fst htrC).symm

/-- Witness for C1: a two-reference batch against an oracle that rate
limits the first upstream call — the second reference is emitted as
"rate limit hit". -/
theorem C1_witness :
    (resultErrs (checkAll (fun _ => Except.error RegErr.rateLimit) 0
        (cacheNew (str "f") 10 false)
        [⟨str "docker.io", str "nginx", str "1.0", str "nginx:1.0", str "p", 1, false⟩]
        [⟨str "trino", str "0.8.0", str "", str "p", 2, str "trinodb"⟩]).1).get? 1 =
      some (str "rate limit hit") :=
  ((C1_checkAll_halt (fun _ => Except.error RegErr.rateLimit) 0
      (cacheNew (str "f") 10 false)
      [⟨str "docker.io", str "nginx", str "1.0", str "nginx:1.0", str "p", 1, false⟩]
      [⟨str "trino", str "0.8.0", str "", str "p", 2, str "trinodb"⟩]
      (fun _ => ⟨fun hc => RegErr.noConfusion (Except.error.inj hc),
        fun hc => RegErr.noConfusion (Except.error.inj hc)⟩)).2.2 0 (by decide)).2.1 1
    (by decide) (by decide)
